import Mathlib

/-!
# Verification of the curator-agent workspace core

A shallow embedding of the curator-agent repository's core (the
`CategoryPath` value object, the note-file frontmatter parser and
serializer, title derivation, the filesystem workspace adapter and the
categorize-note use case), with theorems settling the specification's
testable properties against the code.

Strings are modelled as `List Char`.  JavaScript's `String.prototype.trim`
and the regex class `\s` are modelled by the `isWs` predicate over the
common ASCII whitespace characters (tab, newline, vertical tab, form feed,
carriage return, space); the source never relies on the exotic Unicode
whitespace code points.
-/

/-- Character-list strings, the model of JavaScript strings. -/
abbrev LC := List Char

/-- Whitespace, as removed by `String.prototype.trim` and matched by `\s`
(restricted to the ASCII range actually exercised by the source). -/
def isWs (c : Char) : Bool :=
  c = ' ' || c = '\t' || c = '\n' || c = '\r' || c = '\x0b' || c = '\x0c'

/-- `s.trim()`: remove leading and trailing whitespace. -/
def jsTrim (xs : LC) : LC :=
  ((xs.dropWhile isWs).reverse.dropWhile isWs).reverse

/-- `s.replace(/\\/g, "/")`: backslashes become forward slashes. -/
def mapBS (xs : LC) : LC :=
  xs.map (fun c => if c = '\\' then '/' else c)

/-- Worker for `collapseSlashes`; the flag records whether the previous
kept character was a slash (so further slashes of the same run are
dropped). -/
def collapseAux : Bool → LC → LC
  | _, [] => []
  | prevSlash, c :: rest =>
    if c = '/' then
      if prevSlash then collapseAux true rest
      else '/' :: collapseAux true rest
    else c :: collapseAux false rest

/-- `s.replace(/\/+/g, "/")`: each run of slashes becomes a single slash. -/
def collapseSlashes (xs : LC) : LC := collapseAux false xs

/-- `s.replace(/^\/|\/$/g, "")`: remove one leading and one trailing
slash. -/
def stripOuterSlashes (xs : LC) : LC :=
  let a := if xs.head? = some '/' then xs.tail else xs
  if a.getLast? = some '/' then a.dropLast else a

/-- `s.replace(/^\/+/, "")`: remove every leading slash. -/
def dropLeadingSlashes (xs : LC) : LC := xs.dropWhile (· = '/')

/-- Helper for `splitLines`: prepend a character to the first line of a
split result. -/
def consHead (c : Char) : List LC → List LC
  | [] => [[c]]
  | l :: ls => (c :: l) :: ls

/-- `s.split(/\r?\n/)`: split into lines at `\n` or `\r\n`; a lone
carriage return is an ordinary character. -/
def splitLines : LC → List LC
  | [] => [[]]
  | '\n' :: rest => [] :: splitLines rest
  | '\r' :: '\n' :: rest => [] :: splitLines rest
  | c :: rest => consHead c (splitLines rest)

/-- `lines.join("\n")`. -/
def joinLines : List LC → LC
  | [] => []
  | [l] => l
  | l :: ls => l ++ '\n' :: joinLines ls

/-- Replace every CRLF pair by LF (the net effect of splitting a string at
`/\r?\n/` and rejoining the pieces with `"\n"`). -/
def normCRLF : LC → LC
  | [] => []
  | '\r' :: '\n' :: rest => '\n' :: normCRLF rest
  | c :: rest => c :: normCRLF rest

/-- `line.indexOf(":")` together with the two `slice`s around it: split a
line at its first colon, `none` when there is no colon. -/
def breakColon : LC → Option (LC × LC)
  | [] => none
  | ':' :: rest => some ([], rest)
  | c :: rest => (breakColon rest).map (fun p => (c :: p.1, p.2))

/-- The `CategoryPath` value object of `src/domain/note.ts`: a private
normalized string. -/
structure CategoryPath where
  value : LC
deriving DecidableEq, Repr

/-- The normalization pipeline of `CategoryPath.fromRaw`:
`raw.trim().replace(/\\/g, "/").replace(/\/+/g, "/")` followed by
`.replace(/^\/|\/$/g, "")`. -/
def cleanedOf (raw : LC) : LC :=
  stripOuterSlashes (collapseSlashes (mapBS (jsTrim raw)))

/-- `CategoryPath.fromRaw`: normalize, then fail (`none`, the model of the
thrown validation error) when the result is empty. -/
def CategoryPath.fromRaw (raw : LC) : Option CategoryPath :=
  let cleaned := cleanedOf raw
  if cleaned = [] then none else some ⟨cleaned⟩

/-- `CategoryPath.root()`: the distinguished empty path. -/
def CategoryPath.root : CategoryPath := ⟨[]⟩

/-- `CategoryPath.isRoot()`. -/
def CategoryPath.isRoot (c : CategoryPath) : Bool := c.value = []

/-- `ParsedNoteFile` of `src/adapters/fs/FsWorkspace.ts`: an
insertion-ordered flat header mapping plus the body text. -/
structure ParsedNoteFile where
  frontmatter : List (LC × LC)
  body : LC
deriving DecidableEq, Repr

/-- Assignment `fm[key] = value` on a JavaScript object used as a record:
an existing key keeps its position and gets the new value, a fresh key is
appended. -/
def fmSet (m : List (LC × LC)) (k v : LC) : List (LC × LC) :=
  if m.any (fun p => p.1 = k) then
    m.map (fun p => if p.1 = k then (k, v) else p)
  else m ++ [(k, v)]

/-- `fm["category"]`-style lookup. -/
def fmGet (m : List (LC × LC)) (k : LC) : Option LC :=
  (m.find? (fun p => p.1 = k)).map (fun p => p.2)

/-- The header loop of `parseNoteFile` (lines from index 1 on): skip empty
lines, stop at a line trimming to `---` (returning the remaining lines as
body lines), skip lines without a colon or with a blank key, and record
`key: value` pairs with both sides trimmed. -/
def parseHeader (acc : List (LC × LC)) : List LC → List (LC × LC) × List LC
  | [] => (acc, [])
  | line :: rest =>
    if line = [] then parseHeader acc rest
    else if jsTrim line = "---".toList then (acc, rest)
    else
      match breakColon line with
      | none => parseHeader acc rest
      | some (pre, post) =>
        let key := jsTrim pre
        if key = [] then parseHeader acc rest
        else parseHeader (fmSet acc key (jsTrim post)) rest

/-- `parseNoteFile` applied to an already-split line list together with
the raw text (the raw text is returned verbatim when the first line does
not trim to the delimiter). -/
def parseFromLines : List LC → LC → ParsedNoteFile
  | [], raw => ⟨[], raw⟩
  | l0 :: rest, raw =>
    if jsTrim l0 = "---".toList then
      let p := parseHeader [] rest
      ⟨p.1, joinLines p.2⟩
    else ⟨[], raw⟩

/-- `parseNoteFile` of `src/adapters/fs/FsWorkspace.ts`. -/
def parseNoteFile (raw : LC) : ParsedNoteFile :=
  parseFromLines (splitLines raw) raw

/-- The `": "` between key and value in a serialized header line. -/
def kvSep : LC := [':', ' ']

/-- `serializeNoteFile` of `src/adapters/fs/FsWorkspace.ts`: an empty
header mapping yields the body verbatim; otherwise the delimiter, one
`key: value` line per entry in insertion order, the delimiter, a blank
line, and the body are joined with newlines. -/
def serializeNoteFile (parsed : ParsedNoteFile) : LC :=
  if parsed.frontmatter = [] then parsed.body
  else
    joinLines (("---".toList ::
      parsed.frontmatter.map (fun p => p.1 ++ kvSep ++ p.2)) ++
      ["---".toList, [], parsed.body])

/-- `path.basename(p)` (posix): trailing slashes are ignored, the result
is the last path component (empty for `""` and `"/"`). -/
def basenameStr (p : LC) : LC :=
  (((p.reverse.dropWhile (· = '/')).takeWhile (· ≠ '/')).reverse)

/-- `path.basename(p, ext)` (posix): as `basenameStr`, and additionally
remove the suffix `ext` when the name ends with it without being equal to
it. -/
def basenameExt (p ext : LC) : LC :=
  let nm := basenameStr p
  if ext ≠ [] ∧ nm ≠ ext ∧ ext.isSuffixOf nm then nm.take (nm.length - ext.length)
  else nm

/-- `path.extname(p)` (posix) for ordinary file names: the final
dot-suffix of the base name, empty when the base name has no dot or only
a leading dot.  (The special-casing of names made only of dots is not
modelled; the repository never produces such names.) -/
def extnameStr (p : LC) : LC :=
  let nm := basenameStr p
  let revExt := nm.reverse.takeWhile (· ≠ '.')
  if revExt.length + 1 < nm.length then '.' :: revExt.reverse else []

/-- `line.replace(/^#\s*/, "")`: remove a leading hash and any whitespace
after it; a line not beginning with a hash is unchanged. -/
def stripHashMarker (l : LC) : LC :=
  match l with
  | '#' :: rest => rest.dropWhile isWs
  | _ => l

/-- `line.trim().startsWith("# ")`. -/
def isH1Line (l : LC) : Bool :=
  match jsTrim l with
  | '#' :: ' ' :: _ => true
  | _ => false

/-- `deriveTitle` of `src/adapters/fs/FsWorkspace.ts`: the first body line
whose trimmed form starts with `"# "` yields
`line.replace(/^#\s*/, "").trim()`, with `path.basename(relativePath)` as
fallback when that is empty; without such a line the title is the base
name without its extension. -/
def deriveTitle (relativePath body : LC) : LC :=
  match (splitLines body).find? isH1Line with
  | some h1 =>
    let t := jsTrim (stripHashMarker h1)
    if t = [] then basenameStr relativePath else t
  | none => basenameExt relativePath (extnameStr relativePath)

/-- One segment step of posix path normalization: `..` pops a directory
when possible, `.` and empty segments disappear.  `abs` tells whether the
whole path is absolute (then `..` at the root vanishes; on a relative
path it is kept). -/
def normStep (abs : Bool) (stack : List LC) (seg : LC) : List LC :=
  if seg = ".".toList then stack
  else if seg = "..".toList then
    match stack with
    | [] => if abs then [] else ["..".toList]
    | top :: rest => if top = "..".toList then seg :: top :: rest else rest
  else seg :: stack

/-- `parts.join("/")`: join path segments with a slash. -/
def joinSegs : List LC → LC
  | [] => []
  | [s] => s
  | s :: rest => s ++ '/' :: joinSegs rest

/-- Split a string at every slash. -/
def splitSlash : LC → List LC
  | [] => [[]]
  | '/' :: rest => [] :: splitSlash rest
  | c :: rest => consHead c (splitSlash rest)

/-- Split a path at slashes, keeping only the non-empty segments. -/
def pathSegs (p : LC) : List LC :=
  (splitSlash p).filter (· ≠ [])

/-- `path.normalize(p)` (posix): resolve `.` and `..` segments, collapse
slash runs, keep a leading slash (absolute path) and a trailing slash. -/
def normalizePath (p : LC) : LC :=
  let abs : Bool := p.head? = some '/'
  let trail : Bool := p.getLast? = some '/'
  let segs := ((pathSegs p).foldl (normStep abs) []).reverse
  match segs with
  | [] => if abs then "/".toList else ".".toList
  | _ =>
    (if abs then ['/'] else []) ++ joinSegs segs ++
      (if trail then ['/'] else [])

/-- `path.join(a, b)` (posix): join the non-empty arguments with a slash
and normalize; the join of nothing is `"."`. -/
def posixJoin (a b : LC) : LC :=
  normalizePath (joinSegs ([a, b].filter (· ≠ [])))

/-- `path.dirname(p)` (posix): everything before the last slash that
precedes the base name; `.` when there is no directory part. -/
def dirnameStr (p : LC) : LC :=
  if p = [] then ".".toList
  else
    let hasRoot : Bool := p.head? = some '/'
    let r1 := p.reverse.dropWhile (· = '/')
    let r2 := r1.dropWhile (· ≠ '/')
    match r2 with
    | [] => if hasRoot then "/".toList else ".".toList
    | _ :: rest =>
      if rest = [] then "/".toList
      else if hasRoot ∧ rest.length = 1 then "//".toList
      else rest.reverse

/-- A filesystem effect performed by the workspace adapter. -/
inductive FsEvent where
  | read (p : LC)
  | mkdirRec (p : LC)
  | write (p : LC) (content : LC)
  | unlink (p : LC)
  | listdir
deriving DecidableEq, Repr

/-- The flat filesystem store: file contents and recorded directories,
both keyed by absolute path. -/
structure Fs where
  files : List (LC × LC)
  dirs : List LC
deriving DecidableEq, Repr

/-- `fs.readFile`-style lookup (first matching key). -/
def lookupFile (fs : Fs) (p : LC) : Option LC := fmGet fs.files p

/-- The state change of one filesystem effect; reads change nothing,
`mkdir -p` records a directory, writes upsert, unlink removes. -/
def applyEvent (fs : Fs) (e : FsEvent) : Fs :=
  match e with
  | .read _ => fs
  | .listdir => fs
  | .mkdirRec p => { fs with dirs := if p ∈ fs.dirs then fs.dirs else fs.dirs ++ [p] }
  | .write p c => { fs with files := fmSet fs.files p c }
  | .unlink p => { fs with files := fs.files.filter (fun q => q.1 ≠ p) }

/-- Apply a sequence of effects in order. -/
def applyEvents (fs : Fs) (es : List FsEvent) : Fs := es.foldl applyEvent fs

/-- `FsWorkspace.resolveAbsolute`: replace backslashes, strip leading
slashes, join under the workspace root. -/
def resolveAbsolute (root rel : LC) : LC :=
  posixJoin root (dropLeadingSlashes (mapBS rel))

/-- `FsWorkspace.deriveCategoryFromPath`: the containing directory as a
category, none for `.` or the empty directory.  The outer `Option` is
failure (a thrown `fromRaw` error), the inner one absence of a
category. -/
def deriveCategoryFromPath (relativePath : LC) : Option (Option CategoryPath) :=
  let dir := mapBS (dirnameStr relativePath)
  if dir = ".".toList ∨ dir = [] then some none
  else (CategoryPath.fromRaw dir).map some

/-- The `Note` aggregate of `src/domain/note.ts`. -/
structure NoteM where
  id : LC
  path : LC
  title : LC
  content : LC
  category : Option CategoryPath
deriving DecidableEq, Repr

/-- `FsWorkspace.loadNote`: read, parse, prefer a non-blank `category`
header over the path-derived category, derive the title.  `none` models a
thrown error (missing file or invalid category value). -/
def loadNoteFs (fs : Fs) (root relativePath : LC) : Option NoteM :=
  match lookupFile fs (resolveAbsolute root relativePath) with
  | none => none
  | some raw =>
    let parsed := parseNoteFile raw
    let category? : Option (Option CategoryPath) :=
      match fmGet parsed.frontmatter "category".toList with
      | some v =>
        if v ≠ [] ∧ jsTrim v ≠ [] then (CategoryPath.fromRaw v).map some
        else deriveCategoryFromPath relativePath
      | none => deriveCategoryFromPath relativePath
    match category? with
    | none => none
    | some category =>
      some { id := relativePath, path := relativePath,
             title := deriveTitle relativePath parsed.body,
             content := parsed.body, category := category }

/-- Everything `FsWorkspace.applyCategoryChange` decides before touching
the disk: the effect sequence it will perform and the paths and content
involved. -/
structure ApplyPlan where
  events : List FsEvent
  absOld : LC
  absNew : LC
  newRel : LC
  newContent : LC
  rawOld : LC
deriving DecidableEq, Repr

/-- The effect plan of `FsWorkspace.applyCategoryChange`: read the old
file, overwrite the `category` header, serialize, create the destination
directory, write the new file, unlink the old file only when the new
absolute path differs, re-read the relocated note.  `none` models the
initial read failing (missing file). -/
def applyCategoryChangePlan (fs : Fs) (root notePath : LC)
    (newCategory : CategoryPath) : Option ApplyPlan :=
  let currentRel := dropLeadingSlashes (mapBS notePath)
  let absOld := resolveAbsolute root currentRel
  match lookupFile fs absOld with
  | none => none
  | some raw =>
    let parsed := parseNoteFile raw
    let fm2 := fmSet parsed.frontmatter "category".toList newCategory.value
    let newContent := serializeNoteFile ⟨fm2, parsed.body⟩
    let newRel := dropLeadingSlashes
      (mapBS (posixJoin newCategory.value (basenameStr currentRel)))
    let absNew := resolveAbsolute root newRel
    some { events := [.read absOld, .mkdirRec (dirnameStr absNew),
                      .write absNew newContent] ++
             (if absNew = absOld then [] else [.unlink absOld]) ++ [.read absNew],
           absOld := absOld, absNew := absNew, newRel := newRel,
           newContent := newContent, rawOld := raw }

/-- `FsWorkspace.applyCategoryChange` in full: perform the planned
effects, then return the freshly loaded note from its new location. -/
def applyCategoryChangeFs (fs : Fs) (root notePath : LC)
    (newCategory : CategoryPath) : Option (NoteM × Fs × List FsEvent) :=
  match applyCategoryChangePlan fs root notePath newCategory with
  | none => none
  | some plan =>
    let fs2 := applyEvents fs plan.events
    match loadNoteFs fs2 root plan.newRel with
    | none => none
    | some n => some (n, fs2, plan.events)

/-- `CategorizationDecision` of `src/ports/CategorizationPort.ts`
(confidence is irrelevant to the claims and omitted). -/
structure DecisionM where
  suggestedCategory : CategoryPath
  reasoning : LC
deriving DecidableEq, Repr

/-- Output DTO of `CategorizeNoteUseCase`. -/
structure CategorizeOutput where
  originalNote : NoteM
  updatedNote : NoteM
  wasMoved : Bool
  reasoning : LC
deriving DecidableEq, Repr

/-- `FsWorkspace.listCategories` on the flat store: a read-only
enumeration of the recorded directories.  Its value is irrelevant to the
claims settled on this model (the use-case claim quantifies over the
oracle); the recursive directory walk itself is verified on the tree
model further below. -/
def listCategoriesFlat (fs : Fs) : List CategoryPath :=
  fs.dirs.filterMap CategoryPath.fromRaw

/-- `CategorizeNoteUseCase.execute`: load the note, list the categories,
ask the oracle, and either return unchanged (equal category strings, the
current one defaulting to empty) or apply the change and return the
freshly loaded note.  The returned trace records every filesystem effect
performed. -/
def executeUseCase (fs : Fs) (root : LC)
    (oracle : NoteM → List CategoryPath → Option DecisionM)
    (relativePath : LC) : Option (CategorizeOutput × Fs × List FsEvent) :=
  match loadNoteFs fs root relativePath with
  | none => none
  | some originalNote =>
    match oracle originalNote (listCategoriesFlat fs) with
    | none => none
    | some decision =>
      let currentCategoryStr := match originalNote.category with
        | some c => c.value
        | none => []
      if currentCategoryStr = decision.suggestedCategory.value then
        some (⟨originalNote, originalNote, false, decision.reasoning⟩, fs,
              [.read (resolveAbsolute root relativePath), .listdir])
      else
        match applyCategoryChangeFs fs root relativePath decision.suggestedCategory with
        | none => none
        | some (updatedNote, fs2, evs) =>
          some (⟨originalNote, updatedNote, true, decision.reasoning⟩, fs2,
                [.read (resolveAbsolute root relativePath), .listdir] ++ evs)

mutual
/-- A directory of the workspace tree model: an ordered entry list. -/
inductive DirTree where
  | node : EntryList → DirTree

/-- The entries of a directory: named files and named subdirectories, in
enumeration order. -/
inductive EntryList where
  | nil : EntryList
  | consFile (name : LC) (rest : EntryList) : EntryList
  | consDir (name : LC) (sub : DirTree) (rest : EntryList) : EntryList
end

mutual
/-- The `walk` of `FsWorkspace.listCategories` on the tree model: visit
the entries in order; every directory contributes its cleaned-up
root-relative path (`path.join` with the current relative path, then
backslash and leading-slash cleanup) followed by the paths of its own
walk. -/
def walkDir (currentRel : LC) : DirTree → List LC
  | .node es => walkEntries currentRel es

/-- Entry-list part of `walkDir`. -/
def walkEntries (currentRel : LC) : EntryList → List LC
  | .nil => []
  | .consFile _ rest => walkEntries currentRel rest
  | .consDir name sub rest =>
    let entryRel := dropLeadingSlashes (mapBS (posixJoin currentRel name))
    (entryRel :: walkDir entryRel sub) ++ walkEntries currentRel rest
end

/-- Build a `CategoryPath` from every collected directory path in order;
`none` models a thrown `fromRaw` error aborting the whole listing. -/
def fromRawAll : List LC → Option (List CategoryPath)
  | [] => some []
  | c :: rest =>
    match CategoryPath.fromRaw c, fromRawAll rest with
    | some x, some xs => some (x :: xs)
    | _, _ => none

/-- `FsWorkspace.listCategories` on the tree model: walk from `"."`,
skip `"."` and the empty path, build a `CategoryPath` from every
remaining directory path. -/
def listCategoriesTree (t : DirTree) : Option (List CategoryPath) :=
  fromRawAll ((walkDir ".".toList t).filter
    (fun c => ¬(c = ".".toList ∨ c = [])))

/-- An ordinary directory name: non-empty, no slash or backslash, not a
dot name, unchanged by trimming.  Real directory entries never violate
the first three; the last excludes names whose surrounding whitespace the
`CategoryPath` normalization would strip. -/
def plainNameB (n : LC) : Bool :=
  decide (n ≠ []) && !decide ('/' ∈ n) && !decide ('\\' ∈ n) &&
  decide (jsTrim n = n) && decide (n ≠ ".".toList) && decide (n ≠ "..".toList)

/-- The names of an entry list, in order. -/
def entryNames : EntryList → List LC
  | .nil => []
  | .consFile n rest => n :: entryNames rest
  | .consDir n _ rest => n :: entryNames rest

mutual
/-- Well-formedness of a workspace tree: sibling names are distinct and
every name is ordinary. -/
def wfDir : DirTree → Bool
  | .node es => decide (entryNames es).Nodup && wfEntries es

/-- Entry-list part of `wfDir`. -/
def wfEntries : EntryList → Bool
  | .nil => true
  | .consFile n rest => plainNameB n && wfEntries rest
  | .consDir n sub rest => plainNameB n && wfDir sub && wfEntries rest
end

mutual
/-- The directories of the tree at any depth, as root-relative
slash-joined paths, in preorder.  This follows the specification's words:
every directory encountered below the root, excluding the root itself,
including intermediate parents. -/
def specDirPaths : DirTree → List LC
  | .node es => specDirPathsEntries es

/-- Entry-list part of `specDirPaths`. -/
def specDirPathsEntries : EntryList → List LC
  | .nil => []
  | .consFile _ rest => specDirPathsEntries rest
  | .consDir n sub rest =>
    (n :: (specDirPaths sub).map (fun p => n ++ '/' :: p)) ++ specDirPathsEntries rest
end


/-- The header collection described by the unterminated-header behaviour:
scan the lines in order; a line with a colon and a non-blank trimmed key
records the pair (trimmed key, trimmed value); every other line is
skipped. -/
def specHeaderScan (acc : List (LC × LC)) : List LC → List (LC × LC)
  | [] => acc
  | line :: rest =>
    match breakColon line with
    | none => specHeaderScan acc rest
    | some (pre, post) =>
      if jsTrim pre = [] then specHeaderScan acc rest
      else specHeaderScan (fmSet acc (jsTrim pre) (jsTrim post)) rest

/-- Whether a filesystem effect changes the disk. -/
def isMutatingEvent : FsEvent → Bool
  | .write _ _ => true
  | .unlink _ => true
  | .mkdirRec _ => true
  | .read _ => false
  | .listdir => false

/-! ## Supporting lemmas -/

theorem mem_dropWhile_of_mem {p : Char → Bool} {c : Char} {xs : LC}
    (h : c ∈ xs) (hc : p c = false) : c ∈ xs.dropWhile p := by
  induction xs with
  | nil => cases h
  | cons a rest ih =>
    rw [List.dropWhile_cons]
    by_cases hp : p a = true
    · rcases List.mem_cons.mp h with rfl | hm
      · rw [hp] at hc; cases hc
      · simp [hp, ih hm]
    · simp only [Bool.not_eq_true] at hp
      simp [hp, h]

theorem mem_jsTrim_of_mem {c : Char} {xs : LC} (h : c ∈ xs)
    (hc : isWs c = false) : c ∈ jsTrim xs := by
  unfold jsTrim
  rw [List.mem_reverse]
  exact mem_dropWhile_of_mem (by rw [List.mem_reverse]; exact mem_dropWhile_of_mem h hc) hc

theorem jsTrim_ne_dashes_of_colon {line : LC} (h : ':' ∈ line) :
    jsTrim line ≠ "---".toList := by
  intro he
  have := mem_jsTrim_of_mem h (by decide)
  rw [he] at this
  simp at this

theorem breakColon_append {pre : LC} (post : LC) (h : ':' ∉ pre) :
    breakColon (pre ++ ':' :: post) = some (pre, post) := by
  induction pre with
  | nil => rfl
  | cons c cs ih =>
    have hc : c ≠ ':' := fun he => h (he ▸ List.mem_cons_self c cs)
    have hcs : ':' ∉ cs := fun hm => h (List.mem_cons_of_mem _ hm)
    rw [List.cons_append, breakColon]
    · rw [ih hcs]; rfl
    · exact fun hh => hc hh

theorem parseHeader_colon_step (acc : List (LC × LC)) (pre post : LC)
    (rest : List LC) (hpre : ':' ∉ pre) :
    parseHeader acc ((pre ++ ':' :: post) :: rest) =
      if jsTrim pre = [] then parseHeader acc rest
      else parseHeader (fmSet acc (jsTrim pre) (jsTrim post)) rest := by
  have hcolon : ':' ∈ pre ++ ':' :: post := List.mem_append_right _ (List.mem_cons_self _ _)
  have hemp : pre ++ ':' :: post ≠ [] := by
    intro he
    exact absurd (he ▸ hcolon) (List.not_mem_nil _)
  rw [parseHeader, if_neg hemp, if_neg (jsTrim_ne_dashes_of_colon hcolon),
    breakColon_append post hpre]

theorem parseHeader_noDelim (ls : List LC) :
    ∀ acc, (∀ l ∈ ls, jsTrim l ≠ "---".toList) →
    parseHeader acc ls = (specHeaderScan acc ls, []) := by
  induction ls with
  | nil => intro acc _; rfl
  | cons line rest ih =>
    intro acc h
    have hline := h line (List.mem_cons_self _ _)
    have hrest : ∀ l ∈ rest, jsTrim l ≠ "---".toList :=
      fun l hl => h l (List.mem_cons_of_mem _ hl)
    by_cases hemp : line = []
    · subst hemp
      rw [parseHeader, specHeaderScan]
      simp only [if_pos rfl]
      rw [ih _ hrest]
      rfl
    · rw [parseHeader, specHeaderScan]
      rw [if_neg hemp, if_neg hline]
      cases hbc : breakColon line with
      | none => exact ih _ hrest
      | some p =>
        obtain ⟨pre, post⟩ := p
        by_cases hk : jsTrim pre = []
        · simp only [hk, if_pos rfl]
          exact ih _ hrest
        · simp only [if_neg hk]
          exact ih _ hrest

/-! ## C8: CategoryPath rejection -/

/-- C8: `CategoryPath.fromRaw` fails exactly when the normalized value is
empty; in particular `""`, `"   "` and `"///"` are all rejected, while
`root()` is a distinguished empty-path instance that no successful
construction ever equals. -/
theorem categoryPath_rejection :
    CategoryPath.fromRaw "".toList = none ∧
    CategoryPath.fromRaw "   ".toList = none ∧
    CategoryPath.fromRaw "///".toList = none ∧
    (∀ s : LC, CategoryPath.fromRaw s = none ↔ cleanedOf s = []) ∧
    CategoryPath.root.isRoot = true ∧
    (∀ (s : LC) (c : CategoryPath), CategoryPath.fromRaw s = some c → c.isRoot = false) := by
  refine ⟨by decide, by decide, by decide, ?_, by decide, ?_⟩
  · intro s
    unfold CategoryPath.fromRaw
    by_cases h : cleanedOf s = [] <;> simp [h]
  · intro s c h
    unfold CategoryPath.fromRaw at h
    by_cases hc : cleanedOf s = []
    · rw [if_pos hc] at h; cases h
    · rw [if_neg hc] at h
      cases h
      simpa [CategoryPath.isRoot] using hc

/-- Witness for C8: a concrete successful construction is not root. -/
theorem categoryPath_rejection_witness :
    (CategoryPath.mk "AI".toList).isRoot = false :=
  categoryPath_rejection.2.2.2.2.2 "AI".toList ⟨"AI".toList⟩ (by decide)

/-! ## C9: no-header passthrough -/

/-- C9: when the first line of the input does not trim to the delimiter
`---` (that is, the parser does not recognize it as a delimiter line),
`parseNoteFile` returns an empty header mapping and the body is the whole
input, unchanged. -/
theorem noHeader_passthrough (raw : LC)
    (h : jsTrim ((splitLines raw).headD []) ≠ "---".toList) :
    parseNoteFile raw = ⟨[], raw⟩ := by
  cases hsl : splitLines raw with
  | nil => rw [parseNoteFile, hsl, parseFromLines]
  | cons l0 rest =>
    rw [hsl] at h
    simp only [List.headD_cons] at h
    rw [parseNoteFile, hsl, parseFromLines, if_neg h]

/-- Witness for C9 at a concrete input. -/
theorem noHeader_passthrough_witness :
    parseNoteFile "no heading here\nbody".toList = ⟨[], "no heading here\nbody".toList⟩ :=
  noHeader_passthrough _ (by decide)

/-! ## C10: unterminated header block -/

/-- C10: when the first line trims to `---` and no later line does, the
whole rest of the file is consumed as header: lines with a colon and a
non-blank trimmed key become entries, everything else is skipped, and the
body is empty; the parser always returns a result. -/
theorem unterminated_header (raw l0 : LC) (rest : List LC)
    (hsplit : splitLines raw = l0 :: rest)
    (h0 : jsTrim l0 = "---".toList)
    (hrest : ∀ l ∈ rest, jsTrim l ≠ "---".toList) :
    parseNoteFile raw = ⟨specHeaderScan [] rest, []⟩ := by
  rw [parseNoteFile, hsplit, parseFromLines, if_pos h0, parseHeader_noDelim rest [] hrest]
  rfl

/-- Witness for C10: an unterminated header with a malformed line, a
blank line and a blank-key line; everything is consumed, the body is
empty. -/
theorem unterminated_header_witness :
    parseNoteFile "---\na: b\nnope\n : x\n\nk2 :  v 2 ".toList =
      ⟨[("a".toList, "b".toList), ("k2".toList, "v 2".toList)], []⟩ :=
  (unterminated_header _ "---".toList
      ["a: b".toList, "nope".toList, " : x".toList, [], "k2 :  v 2 ".toList]
      (by decide) (by decide) (by decide)).trans (by decide)

/-! ## C4: delimiter exactness (corrected) -/

/-- Counterexample to C4: the delimiter line is recognized after
trimming, so a first line of `---` surrounded by whitespace does open a
header block — the header mapping is not empty and the body is not the
whole content. -/
theorem delimiter_exactness_cex :
    (parseNoteFile " --- \na: b\n---\nX".toList).frontmatter ≠ [] ∧
    parseNoteFile " --- \na: b\n---\nX".toList ≠
      ⟨[], " --- \na: b\n---\nX".toList⟩ := by decide

/-- C4 (amended): delimiter lines are recognized up to surrounding
whitespace — any first line trimming to `---` opens a header block, and
which padded spelling is used makes no difference to the parse — while
leading and trailing whitespace on `key: value` lines is trimmed on both
sides of the first colon. -/
theorem delimiter_trimmed_amended :
    (∀ (l0 l0' : LC) (ls : List LC) (raw raw' : LC),
      jsTrim l0 = "---".toList → jsTrim l0' = "---".toList →
      parseFromLines (l0 :: ls) raw = parseFromLines (l0' :: ls) raw') ∧
    (∀ (acc : List (LC × LC)) (pre post : LC) (rest : List LC), ':' ∉ pre →
      parseHeader acc ((pre ++ ':' :: post) :: rest) =
        if jsTrim pre = [] then parseHeader acc rest
        else parseHeader (fmSet acc (jsTrim pre) (jsTrim post)) rest) := by
  constructor
  · intro l0 l0' ls raw raw' h h'
    simp only [parseFromLines]
    rw [if_pos h, if_pos h']
  · exact parseHeader_colon_step

/-- Witness for the amended C4 at concrete inputs: the padded and the
exact delimiter produce the same parse. -/
theorem delimiter_trimmed_witness :
    parseFromLines [" --- ".toList, "a: b".toList, "---".toList, "X".toList] "r1".toList =
      parseFromLines ["---".toList, "a: b".toList, "---".toList, "X".toList] "r2".toList :=
  delimiter_trimmed_amended.1 " --- ".toList "---".toList _ _ _ (by decide) (by decide)

/-! ## Lemmas about line splitting and joining -/

theorem splitLines_nil : splitLines [] = [[]] := rfl

theorem splitLines_newline (rest : LC) : splitLines ('\n' :: rest) = [] :: splitLines rest := rfl

theorem splitLines_crlf (rest : LC) :
    splitLines ('\r' :: '\n' :: rest) = [] :: splitLines rest := rfl

theorem splitLines_other (c : Char) (rest : LC) (h1 : c ≠ '\n')
    (h2 : ¬(c = '\r' ∧ rest.head? = some '\n')) :
    splitLines (c :: rest) = consHead c (splitLines rest) := by
  rw [splitLines.eq_def]
  split
  · simp_all
  · simp_all
  · rename_i heq
    rw [List.cons.injEq] at heq
    exact absurd ⟨heq.1, by rw [heq.2]; rfl⟩ h2
  · rename_i heq
    injection heq with hc hr
    subst hc; subst hr; rfl

theorem splitLines_ne_nil (xs : LC) : splitLines xs ≠ [] := by
  induction xs using splitLines.induct with
  | case1 => simp [splitLines]
  | case2 rest ih => simp [splitLines]
  | case3 rest ih => simp [splitLines]
  | case4 c rest h1 h2 ih =>
    rw [splitLines.eq_def]
    split <;> simp_all [consHead]
    split <;> simp

theorem joinLines_cons_cons (l l2 : LC) (ls : List LC) :
    joinLines (l :: l2 :: ls) = l ++ '\n' :: joinLines (l2 :: ls) := rfl

theorem normCRLF_other (c : Char) (rest : LC)
    (h2 : ¬(c = '\r' ∧ rest.head? = some '\n')) :
    normCRLF (c :: rest) = c :: normCRLF rest := by
  rw [normCRLF.eq_def]
  split
  · simp_all
  · rename_i heq
    rw [List.cons.injEq] at heq
    exact absurd ⟨heq.1, by rw [heq.2]; rfl⟩ h2
  · rename_i heq
    injection heq with hc hr
    subst hc; subst hr; rfl

theorem splitLines_append_cons (a b : LC) (h1 : '\n' ∉ a)
    (h2 : a.getLast? ≠ some '\r') :
    splitLines (a ++ '\n' :: b) = a :: splitLines b := by
  induction a with
  | nil => simp [splitLines_newline]
  | cons c a' ih =>
    have hc : c ≠ '\n' := fun he => h1 (he ▸ List.mem_cons_self _ _)
    have h1' : '\n' ∉ a' := fun hm => h1 (List.mem_cons_of_mem _ hm)
    have hcr : ¬(c = '\r' ∧ (a' ++ '\n' :: b).head? = some '\n') := by
      rintro ⟨rfl, hh⟩
      cases a' with
      | nil => exact h2 (by simp)
      | cons d a'' =>
        simp only [List.cons_append, List.head?_cons, Option.some.injEq] at hh
        exact h1' (hh ▸ List.mem_cons_self _ _)
    have h2' : a'.getLast? ≠ some '\r' := by
      cases a' with
      | nil => simp
      | cons d a'' =>
        intro hl
        exact h2 (by rw [List.getLast?_cons_cons]; exact hl)
    rw [List.cons_append, splitLines_other c _ hc hcr, ih h1' h2']
    rfl

theorem joinLines_splitLines (xs : LC) : joinLines (splitLines xs) = normCRLF xs := by
  induction xs using splitLines.induct with
  | case1 => rfl
  | case2 rest ih =>
    rw [splitLines_newline]
    cases hs : splitLines rest with
    | nil => exact absurd hs (splitLines_ne_nil rest)
    | cons l ls =>
      rw [← hs, show joinLines ([] :: splitLines rest) = '\n' :: joinLines (splitLines rest) by
        rw [hs]; exact joinLines_cons_cons [] l ls, ih]
      rfl
  | case3 rest ih =>
    rw [splitLines_crlf]
    cases hs : splitLines rest with
    | nil => exact absurd hs (splitLines_ne_nil rest)
    | cons l ls =>
      rw [← hs, show joinLines ([] :: splitLines rest) = '\n' :: joinLines (splitLines rest) by
        rw [hs]; exact joinLines_cons_cons [] l ls, ih]
      rfl
  | case4 c rest h1 h2 ih =>
    have hc : c ≠ '\n' := fun he => h1 (by rw [he])
    have hcr : ¬(c = '\r' ∧ rest.head? = some '\n') := by
      rintro ⟨rfl, hh⟩
      cases rest with
      | nil => cases hh
      | cons d r' =>
        simp only [List.head?_cons, Option.some.injEq] at hh
        exact h2 r' rfl (by rw [hh])
    rw [splitLines_other c rest hc hcr, normCRLF_other c rest hcr]
    cases hs : splitLines rest with
    | nil => exact absurd hs (splitLines_ne_nil rest)
    | cons l ls =>
      rw [hs] at ih
      cases ls with
      | nil =>
        simp only [consHead, joinLines] at ih ⊢
        rw [ih]
      | cons l2 ls' =>
        simp only [consHead]
        rw [joinLines_cons_cons] at ih
        rw [joinLines_cons_cons, ← ih]
        rfl

/-- A line that line-splitting passes through unchanged: it contains no
newline and does not end in a carriage return. -/
def CleanLine (l : LC) : Prop := '\n' ∉ l ∧ l.getLast? ≠ some '\r'

theorem splitLines_joinLines_concat (lines : List LC) (b : LC)
    (h : ∀ l ∈ lines, CleanLine l) :
    splitLines (joinLines (lines ++ [b])) = lines ++ splitLines b := by
  induction lines with
  | nil => rfl
  | cons l ls ih =>
    have hl := h l (List.mem_cons_self _ _)
    have hls : ∀ x ∈ ls, CleanLine x := fun x hx => h x (List.mem_cons_of_mem _ hx)
    have hjoin : joinLines (l :: (ls ++ [b])) = l ++ '\n' :: joinLines (ls ++ [b]) := by
      cases hx : ls ++ [b] with
      | nil => simp at hx
      | cons y ys => exact joinLines_cons_cons l y ys
    rw [List.cons_append, hjoin, splitLines_append_cons l _ hl.1 hl.2, ih hls,
      List.cons_append]

theorem jsTrim_cons_ws (c : Char) (xs : LC) (hc : isWs c = true) :
    jsTrim (c :: xs) = jsTrim xs := by
  unfold jsTrim
  rw [List.dropWhile_cons_of_pos hc]

theorem fmSet_fresh (m : List (LC × LC)) (k v : LC)
    (h : k ∉ m.map Prod.fst) : fmSet m k v = m ++ [(k, v)] := by
  unfold fmSet
  rw [if_neg]
  intro hany
  rw [List.any_eq_true] at hany
  obtain ⟨p, hp, he⟩ := hany
  rw [decide_eq_true_eq] at he
  exact h (he ▸ List.mem_map_of_mem Prod.fst hp)

/-- Insert a list of entries one by one (the accumulated header object of
the parse loop). -/
def fmInsertAll (acc : List (LC × LC)) (entries : List (LC × LC)) : List (LC × LC) :=
  entries.foldl (fun a p => fmSet a p.1 p.2) acc

theorem fmInsertAll_append (entries : List (LC × LC)) :
    ∀ acc, (entries.map Prod.fst).Nodup →
    (∀ k ∈ entries.map Prod.fst, k ∉ acc.map Prod.fst) →
    fmInsertAll acc entries = acc ++ entries := by
  induction entries with
  | nil => intro acc _ _; simp [fmInsertAll]
  | cons p t ih =>
    intro acc hnd hdisj
    have hk : p.1 ∉ acc.map Prod.fst :=
      hdisj p.1 (by rw [List.map_cons]; exact List.mem_cons_self _ _)
    have hnd' : (t.map Prod.fst).Nodup := by
      rw [List.map_cons] at hnd; exact hnd.of_cons
    have hhead : p.1 ∉ t.map Prod.fst := by
      rw [List.map_cons, List.nodup_cons] at hnd; exact hnd.1
    have hdisj' : ∀ k ∈ t.map Prod.fst, k ∉ (acc ++ [p]).map Prod.fst := by
      intro k hkt
      rw [List.map_append, List.mem_append]
      rintro (hka | hkp)
      · exact hdisj k (by rw [List.map_cons]; exact List.mem_cons_of_mem _ hkt) hka
      · simp only [List.map_cons, List.map_nil, List.mem_cons, List.not_mem_nil,
          or_false] at hkp
        exact hhead (hkp ▸ hkt)
    show fmInsertAll (fmSet acc p.1 p.2) t = acc ++ p :: t
    rw [show fmSet acc p.1 p.2 = acc ++ [p] from by
        rw [fmSet_fresh acc p.1 p.2 hk], ih (acc ++ [p]) hnd' hdisj',
      List.append_assoc]
    rfl

theorem length_dropWhile_le (p : Char → Bool) (xs : LC) :
    (xs.dropWhile p).length ≤ xs.length := by
  induction xs with
  | nil => simp
  | cons c rest ih =>
    rw [List.dropWhile_cons]
    split
    · exact Nat.le_trans ih (Nat.le_succ _)
    · simp

theorem head?_dropWhile_not (p : Char → Bool) (xs : LC) (a : Char)
    (h : (xs.dropWhile p).head? = some a) : p a = false := by
  induction xs with
  | nil => cases h
  | cons c rest ih =>
    rw [List.dropWhile_cons] at h
    by_cases hc : p c = true
    · rw [if_pos hc] at h; exact ih h
    · rw [if_neg hc] at h
      simp only [List.head?_cons, Option.some.injEq] at h
      subst h
      exact Bool.eq_false_iff.mpr hc

theorem trimStable_getLast_not_ws (v : LC) (ht : jsTrim v = v) (c : Char)
    (hc : v.getLast? = some c) : isWs c = false := by
  rw [← ht] at hc
  unfold jsTrim at hc
  rw [← List.head?_reverse, List.reverse_reverse] at hc
  exact head?_dropWhile_not _ _ _ hc

theorem trimStable_head_not_ws (v : LC) (ht : jsTrim v = v) (c : Char)
    (hc : v.head? = some c) : isWs c = false := by
  by_contra hw
  rw [Bool.not_eq_false] at hw
  cases v with
  | nil => cases hc
  | cons d w =>
    simp only [List.head?_cons, Option.some.injEq] at hc
    rw [← hc] at hw
    have hlen : (jsTrim (d :: w)).length ≤ w.length := by
      unfold jsTrim
      rw [List.length_reverse, List.dropWhile_cons_of_pos hw]
      calc ((w.dropWhile isWs).reverse.dropWhile isWs).length
          ≤ (w.dropWhile isWs).reverse.length := length_dropWhile_le _ _
        _ = (w.dropWhile isWs).length := List.length_reverse _
        _ ≤ w.length := length_dropWhile_le _ _
    rw [ht] at hlen
    simp at hlen

theorem parseHeader_kvList (entries : List (LC × LC)) :
    ∀ (acc : List (LC × LC)) (tail : List LC),
    (∀ p ∈ entries, jsTrim p.1 = p.1 ∧ p.1 ≠ [] ∧ ':' ∉ p.1 ∧ jsTrim p.2 = p.2) →
    parseHeader acc
      ((entries.map (fun p => p.1 ++ kvSep ++ p.2)) ++ "---".toList :: tail) =
      (fmInsertAll acc entries, tail) := by
  induction entries with
  | nil =>
    intro acc tail _
    rw [List.map_nil, List.nil_append, parseHeader, if_neg (by decide), if_pos (by decide)]
    rfl
  | cons p t ih =>
    intro acc tail h
    obtain ⟨hk1, hk2, hk3, hv1⟩ := h p (List.mem_cons_self _ _)
    have ht : ∀ q ∈ t, jsTrim q.1 = q.1 ∧ q.1 ≠ [] ∧ ':' ∉ q.1 ∧ jsTrim q.2 = q.2 :=
      fun q hq => h q (List.mem_cons_of_mem _ hq)
    have hsep : p.1 ++ kvSep ++ p.2 = p.1 ++ ':' :: ' ' :: p.2 := by
      rw [List.append_assoc]; rfl
    rw [List.map_cons, List.cons_append, hsep,
      parseHeader_colon_step acc p.1 (' ' :: p.2) _ hk3,
      if_neg (by rw [hk1]; exact hk2), hk1,
      jsTrim_cons_ws ' ' p.2 (by decide), hv1, ih _ tail ht]
    rfl

/-! ## C1: note-file round-trip (corrected) -/

/-- Counterexample to C1: already for the one-entry header `{k: v}` and
body `"hello"`, parsing the serialization does not return the original
body — the blank separator line that `serializeNoteFile` emits after the
closing delimiter is kept by `parseNoteFile` as part of the body. -/
theorem roundTrip_cex :
    parseNoteFile (serializeNoteFile ⟨[("k".toList, "v".toList)], "hello".toList⟩) ≠
      ⟨[("k".toList, "v".toList)], "hello".toList⟩ := by decide

/-- C1 (amended): for every non-empty header mapping with distinct keys
(keys and values trimmed, keys non-empty, no colon in a key, no newline
in keys or values) and every body, parsing the serialization returns
exactly the header mapping, and a body equal to one newline followed by
the original body with CRLF pairs normalized to LF.  The headers
round-trip exactly; the body comes back with a prepended blank line. -/
theorem roundTrip_amended (entries : List (LC × LC)) (B : LC)
    (hne : entries ≠ [])
    (hkeys : (entries.map Prod.fst).Nodup)
    (hwf : ∀ p ∈ entries, jsTrim p.1 = p.1 ∧ p.1 ≠ [] ∧ ':' ∉ p.1 ∧ '\n' ∉ p.1 ∧
      jsTrim p.2 = p.2 ∧ '\n' ∉ p.2) :
    parseNoteFile (serializeNoteFile ⟨entries, B⟩) =
      ⟨entries, '\n' :: normCRLF B⟩ := by
  have hser : serializeNoteFile ⟨entries, B⟩ =
      joinLines (("---".toList :: entries.map (fun p => p.1 ++ kvSep ++ p.2) ++
        ["---".toList, []]) ++ [B]) := by
    unfold serializeNoteFile
    rw [if_neg hne]
    simp
  have hclean : ∀ l ∈ ("---".toList :: entries.map (fun p => p.1 ++ kvSep ++ p.2) ++
      ["---".toList, []]), CleanLine l := by
    intro l hl
    rw [List.cons_append, List.mem_cons] at hl
    rcases hl with rfl | hl
    · exact ⟨by decide, by decide⟩
    rw [List.mem_append] at hl
    rcases hl with hl | hl
    · obtain ⟨p, hp, rfl⟩ := List.mem_map.mp hl
      obtain ⟨hk1, hk2, hk3, hk4, hv1, hv2⟩ := hwf p hp
      constructor
      · intro hmem
        rw [List.append_assoc, List.mem_append] at hmem
        rcases hmem with hmem | hmem
        · exact hk4 hmem
        · rw [show kvSep ++ p.2 = ':' :: ' ' :: p.2 from rfl] at hmem
          rcases hmem with _ | ⟨_, hmem⟩
          rcases hmem with _ | ⟨_, hmem⟩
          exact hv2 hmem
      · rw [List.append_assoc, show kvSep ++ p.2 = ':' :: ' ' :: p.2 from rfl,
          List.getLast?_append_cons]
        cases hp2 : p.2 with
        | nil => decide
        | cons d w =>
          rw [List.getLast?_cons_cons, List.getLast?_cons_cons]
          intro hlast
          have := trimStable_getLast_not_ws p.2 hv1 '\r' (by rw [hp2]; exact hlast)
          simp [isWs] at this
    · rw [List.mem_cons, List.mem_cons] at hl
      rcases hl with rfl | rfl | hl
      · exact ⟨by decide, by decide⟩
      · exact ⟨by decide, by decide⟩
      · exact absurd hl (List.not_mem_nil l)
  have hsplit : splitLines (serializeNoteFile ⟨entries, B⟩) =
      "---".toList :: ((entries.map (fun p => p.1 ++ kvSep ++ p.2)) ++
        "---".toList :: [] :: splitLines B) := by
    rw [hser, splitLines_joinLines_concat _ B hclean]
    simp
  have hwf' : ∀ p ∈ entries, jsTrim p.1 = p.1 ∧ p.1 ≠ [] ∧ ':' ∉ p.1 ∧ jsTrim p.2 = p.2 :=
    fun p hp => ⟨(hwf p hp).1, (hwf p hp).2.1, (hwf p hp).2.2.1, (hwf p hp).2.2.2.2.1⟩
  rw [parseNoteFile, hsplit, parseFromLines, if_pos (by decide),
    parseHeader_kvList entries [] ([] :: splitLines B) hwf',
    fmInsertAll_append entries [] hkeys (by simp)]
  have hbody : joinLines ([] :: splitLines B) = '\n' :: normCRLF B := by
    cases hs : splitLines B with
    | nil => exact absurd hs (splitLines_ne_nil B)
    | cons l ls =>
      rw [← hs, show joinLines ([] :: splitLines B) = '\n' :: joinLines (splitLines B) by
        rw [hs]; exact joinLines_cons_cons [] l ls, joinLines_splitLines]
  rw [List.nil_append]
  exact congrArg (fun b => ParsedNoteFile.mk entries b) hbody

/-- Witness for the amended C1 at the counterexample's own input: the
headers survive and the body comes back as `"\nhello"`. -/
theorem roundTrip_amended_witness :
    parseNoteFile (serializeNoteFile ⟨[("k".toList, "v".toList)], "hello".toList⟩) =
      ⟨[("k".toList, "v".toList)], "\nhello".toList⟩ :=
  (roundTrip_amended [("k".toList, "v".toList)] "hello".toList (by decide) (by decide)
    (by decide)).trans (by decide)

/-! ## Lemmas about the CategoryPath normalization pipeline -/

/-- No two adjacent slashes. -/
def GoodSlash (xs : LC) : Prop :=
  List.Chain' (fun a b => ¬(a = '/' ∧ b = '/')) xs

theorem collapseAux_true_head (xs : LC) : (collapseAux true xs).head? ≠ some '/' := by
  induction xs with
  | nil => simp [collapseAux]
  | cons c rest ih =>
    rw [collapseAux]
    by_cases hc : c = '/'
    · rw [if_pos hc, if_pos rfl]
      exact ih
    · rw [if_neg hc]
      intro he
      simp only [List.head?_cons, Option.some.injEq] at he
      exact hc he

theorem goodSlash_collapseAux (xs : LC) : ∀ b, GoodSlash (collapseAux b xs) := by
  induction xs with
  | nil => intro b; simp [collapseAux, GoodSlash]
  | cons c rest ih =>
    intro b
    rw [collapseAux]
    by_cases hc : c = '/'
    · rw [if_pos hc]
      by_cases hb : b = true
      · rw [hb, if_pos rfl]; exact ih true
      · rw [Bool.not_eq_true] at hb
        rw [hb, if_neg (by simp)]
        rw [GoodSlash, List.chain'_cons']
        refine ⟨?_, ih true⟩
        intro y hy
        rintro ⟨-, rfl⟩
        exact collapseAux_true_head rest (by rw [hy])
    · rw [if_neg hc]
      rw [GoodSlash, List.chain'_cons']
      refine ⟨?_, ih false⟩
      intro y hy
      rintro ⟨he, -⟩
      exact hc he

theorem collapseAux_id (xs : LC) :
    GoodSlash xs →
    collapseAux false xs = xs ∧ (xs.head? ≠ some '/' → collapseAux true xs = xs) := by
  induction xs with
  | nil => intro _; exact ⟨rfl, fun _ => rfl⟩
  | cons c rest ih =>
    intro hg
    have hg' : GoodSlash rest := hg.tail
    have hrel : ∀ y ∈ rest.head?, ¬(c = '/' ∧ y = '/') :=
      (List.chain'_cons'.mp hg).1
    obtain ⟨ih1, ih2⟩ := ih hg'
    constructor
    · rw [collapseAux]
      by_cases hc : c = '/'
      · rw [if_pos hc, if_neg (by simp)]
        have hhead : rest.head? ≠ some '/' := by
          intro hh
          exact hrel '/' hh ⟨hc, rfl⟩
        rw [ih2 hhead, hc]
      · rw [if_neg hc, ih1]
    · intro hh
      have hc : c ≠ '/' := by
        intro he
        exact hh (by rw [he]; rfl)
      rw [collapseAux, if_neg hc, ih1]

theorem mem_collapseAux (xs : LC) : ∀ b y, y ∈ collapseAux b xs → y ∈ xs := by
  induction xs with
  | nil => intro b y h; cases h
  | cons c rest ih =>
    intro b y h
    rw [collapseAux] at h
    by_cases hc : c = '/'
    · rw [if_pos hc] at h
      by_cases hb : b = true
      · rw [hb, if_pos rfl] at h
        exact List.mem_cons_of_mem _ (ih true y h)
      · rw [Bool.not_eq_true] at hb
        rw [hb, if_neg (by simp)] at h
        rcases List.mem_cons.mp h with rfl | h
        · exact hc ▸ List.mem_cons_self _ _
        · exact List.mem_cons_of_mem _ (ih true y h)
    · rw [if_neg hc] at h
      rcases List.mem_cons.mp h with rfl | h
      · exact List.mem_cons_self _ _
      · exact List.mem_cons_of_mem _ (ih false y h)

theorem goodSlash_reverse (xs : LC) : GoodSlash xs.reverse ↔ GoodSlash xs := by
  rw [GoodSlash, GoodSlash, List.chain'_reverse]
  constructor <;> intro h
  · exact h.imp (fun a b hab => fun hp => hab ⟨hp.2, hp.1⟩)
  · exact h.imp (fun a b hab => fun hp => hab ⟨hp.2, hp.1⟩)

theorem dropLast_eq_reverse_tail (xs : LC) : xs.dropLast = xs.reverse.tail.reverse := by
  rcases List.eq_nil_or_concat xs with rfl | ⟨ys, a, rfl⟩
  · rfl
  · rw [List.concat_eq_append, List.dropLast_concat, List.reverse_append]
    simp

theorem goodSlash_tail (xs : LC) (h : GoodSlash xs) : GoodSlash xs.tail := by
  cases xs with
  | nil => exact h
  | cons c rest => exact h.tail

theorem goodSlash_dropLast (xs : LC) (h : GoodSlash xs) : GoodSlash xs.dropLast := by
  rw [dropLast_eq_reverse_tail, goodSlash_reverse]
  exact goodSlash_tail _ ((goodSlash_reverse xs).mpr h)

theorem stripOuter_spec (u : LC) (hg : GoodSlash u) :
    GoodSlash (stripOuterSlashes u) ∧
    (stripOuterSlashes u).head? ≠ some '/' ∧
    (stripOuterSlashes u).getLast? ≠ some '/' ∧
    (∀ y ∈ stripOuterSlashes u, y ∈ u) := by
  have hstep : ∀ a : LC, GoodSlash a → a.head? ≠ some '/' → (∀ y ∈ a, y ∈ u) →
      GoodSlash (if a.getLast? = some '/' then a.dropLast else a) ∧
      (if a.getLast? = some '/' then a.dropLast else a).head? ≠ some '/' ∧
      (if a.getLast? = some '/' then a.dropLast else a).getLast? ≠ some '/' ∧
      (∀ y ∈ (if a.getLast? = some '/' then a.dropLast else a), y ∈ u) := by
    intro a hga hha hmema
    by_cases hlast : a.getLast? = some '/'
    · rw [if_pos hlast]
      rcases List.eq_nil_or_concat a with rfl | ⟨ys, z, rfl⟩
      · cases hlast
      · rw [List.concat_eq_append] at hga hha hmema ⊢
        rw [List.concat_eq_append, List.getLast?_concat] at hlast
        rw [Option.some.injEq] at hlast
        subst hlast
        rw [List.dropLast_concat]
        have hsplit := (List.chain'_append.mp hga)
        refine ⟨hsplit.1, ?_, ?_, ?_⟩
        · cases ys with
          | nil => simp
          | cons w ws =>
            rw [List.cons_append, List.head?_cons] at hha
            rw [List.head?_cons]
            exact hha
        · intro hl
          exact hsplit.2.2 '/' hl '/' rfl ⟨rfl, rfl⟩
        · intro y hy
          exact hmema y (List.mem_append_left _ hy)
    · rw [if_neg hlast]
      exact ⟨hga, hha, hlast, hmema⟩
  unfold stripOuterSlashes
  by_cases hh : u.head? = some '/'
  · rw [if_pos hh]
    cases u with
    | nil => cases hh
    | cons c rest =>
      rw [List.head?_cons, Option.some.injEq] at hh
      subst hh
      have hrel : ∀ y ∈ rest.head?, ¬('/' = '/' ∧ y = '/') := (List.chain'_cons'.mp hg).1
      have hhr : rest.head? ≠ some '/' := by
        intro hr
        exact hrel '/' hr ⟨rfl, rfl⟩
      exact hstep rest hg.tail hhr (fun y hy => List.mem_cons_of_mem _ hy)
  · rw [if_neg hh]
    exact hstep u hg hh (fun y hy => hy)

theorem mapBS_id (v : LC) (h : '\\' ∉ v) : mapBS v = v := by
  induction v with
  | nil => rfl
  | cons c rest ih =>
    have hc : c ≠ '\\' := fun he => h (he ▸ List.mem_cons_self _ _)
    rw [mapBS, List.map_cons, if_neg hc]
    have := ih (fun hm => h (List.mem_cons_of_mem _ hm))
    rw [mapBS] at this
    rw [this]

theorem not_bs_mem_mapBS (xs : LC) : '\\' ∉ mapBS xs := by
  intro h
  obtain ⟨c, hc, he⟩ := List.mem_map.mp h
  by_cases hb : c = '\\'
  · rw [if_pos hb] at he; cases he
  · rw [if_neg hb] at he; exact hb he

theorem cleanedOf_spec (s : LC) :
    GoodSlash (cleanedOf s) ∧ (cleanedOf s).head? ≠ some '/' ∧
    (cleanedOf s).getLast? ≠ some '/' ∧ '\\' ∉ cleanedOf s := by
  have hgu : GoodSlash (collapseSlashes (mapBS (jsTrim s))) := goodSlash_collapseAux _ false
  obtain ⟨h1, h2, h3, h4⟩ := stripOuter_spec _ hgu
  refine ⟨h1, h2, h3, ?_⟩
  intro hmem
  exact not_bs_mem_mapBS (jsTrim s) (mem_collapseAux _ false '\\' (h4 '\\' hmem))

theorem stripOuter_id (v : LC) (hh : v.head? ≠ some '/') (hl : v.getLast? ≠ some '/') :
    stripOuterSlashes v = v := by
  unfold stripOuterSlashes
  rw [if_neg hh, if_neg hl]

theorem fromRaw_fixed (v : LC) (hv : v ≠ []) (hbs : '\\' ∉ v) (hgood : GoodSlash v)
    (hh : v.head? ≠ some '/') (hl : v.getLast? ≠ some '/') (ht : jsTrim v = v) :
    CategoryPath.fromRaw v = some ⟨v⟩ := by
  unfold CategoryPath.fromRaw cleanedOf
  rw [ht, mapBS_id v hbs, collapseSlashes, (collapseAux_id v hgood).1,
    stripOuter_id v hh hl, if_neg hv]

/-! ## C2: CategoryPath normalization idempotence (corrected) -/

/-- Counterexample to C2: `fromRaw "/ /"` succeeds with normalized value
`" "` (the trim happens before the outer slashes are stripped, so the
stripping exposes whitespace), but re-parsing that value fails — the
round trip through `toString` is not idempotent. -/
theorem categoryPath_idempotence_cex :
    CategoryPath.fromRaw "/ /".toList = some ⟨" ".toList⟩ ∧
    CategoryPath.fromRaw (CategoryPath.mk " ".toList).value = none := by decide

/-- C2 (amended): re-normalization is the identity exactly on values with
no surrounding whitespace: for every raw string on which `fromRaw`
succeeds, if the resulting normalized value is unchanged by trimming,
then `fromRaw` of its `toString` succeeds and returns the same instance;
and equal normalized forms always produce equal instances.  (Without the
trim-stability proviso the round trip can trim further or fail, as the
counterexample shows.) -/
theorem categoryPath_idempotent_amended :
    (∀ (s : LC) (c : CategoryPath), CategoryPath.fromRaw s = some c →
      jsTrim c.value = c.value → CategoryPath.fromRaw c.value = some c) ∧
    (∀ (a b : LC) (x y : CategoryPath), CategoryPath.fromRaw a = some x →
      CategoryPath.fromRaw b = some y → x.value = y.value → x = y) := by
  constructor
  · intro s c hsc ht
    have hval : c.value = cleanedOf s ∧ cleanedOf s ≠ [] := by
      unfold CategoryPath.fromRaw at hsc
      by_cases hc : cleanedOf s = []
      · rw [if_pos hc] at hsc; cases hsc
      · rw [if_neg hc] at hsc
        rw [Option.some.injEq] at hsc
        exact ⟨congrArg CategoryPath.value hsc.symm, hc⟩
    obtain ⟨hg, hh, hl, hbs⟩ := cleanedOf_spec s
    rw [← hval.1] at hg hh hl hbs
    have hne : c.value ≠ [] := by rw [hval.1]; exact hval.2
    have := fromRaw_fixed c.value hne hbs hg hh hl ht
    rw [this]
  · intro a b x y _ _ hv
    cases x; cases y
    simp only at hv
    rw [hv]

/-- Witness for the amended C2: a concrete valid raw string whose
normalized value re-parses to the same instance. -/
theorem categoryPath_idempotent_witness :
    CategoryPath.fromRaw (CategoryPath.mk "AI/Agents".toList).value =
      some ⟨"AI/Agents".toList⟩ :=
  categoryPath_idempotent_amended.1 " AI//Agents/".toList ⟨"AI/Agents".toList⟩
    (by decide) (by decide)

/-! ## C3: title derivation (corrected) -/

theorem find?_append_first {p : LC → Bool} (pre : List LC) (h1 : LC) (post : List LC)
    (hpre : ∀ l ∈ pre, p l = false) (hh : p h1 = true) :
    List.find? p (pre ++ h1 :: post) = some h1 := by
  induction pre with
  | nil => rw [List.nil_append]; exact List.find?_cons_of_pos _ hh
  | cons l ls ih =>
    rw [List.cons_append, List.find?_cons_of_neg]
    · exact ih (fun x hx => hpre x (List.mem_cons_of_mem _ hx))
    · rw [hpre l (List.mem_cons_self _ _)]
      simp

/-- Counterexample to C3: the body `" # Hi"` (single line, heading
marker preceded by whitespace) yields the title `"# Hi"` in file
`notes/foo.md` — the marker is found on the trimmed line but stripped
from the raw line, so the title is neither the stripped remainder
`"Hi"` nor the fallback base name `"foo"` that the claim predicts. -/
theorem deriveTitle_cex :
    deriveTitle "notes/foo.md".toList " # Hi".toList = "# Hi".toList ∧
    "# Hi".toList ≠ "Hi".toList ∧ "# Hi".toList ≠ "foo".toList := by decide

/-- C3 (amended): the heading line is the first line whose trimmed form
starts with `"# "`, but the marker is stripped from the raw line (only
when the line itself begins with `#`; an indented heading keeps its
marker in the title); when the stripped remainder trims to empty the
fallback is the base name including its extension; when no line
qualifies, the title is the base name without its extension.  The
claim's two examples hold. -/
theorem deriveTitle_amended :
    deriveTitle "notes/foo.md".toList "# My Title\n\ntext".toList = "My Title".toList ∧
    deriveTitle "notes/foo.md".toList "no heading here".toList = "foo".toList ∧
    (∀ (rel body : LC), (∀ l ∈ splitLines body, isH1Line l = false) →
      deriveTitle rel body = basenameExt rel (extnameStr rel)) ∧
    (∀ (rel body h1 : LC) (pre post : List LC), splitLines body = pre ++ h1 :: post →
      (∀ l ∈ pre, isH1Line l = false) → isH1Line h1 = true →
      deriveTitle rel body =
        if jsTrim (stripHashMarker h1) = [] then basenameStr rel
        else jsTrim (stripHashMarker h1)) := by
  refine ⟨by decide, by decide, ?_, ?_⟩
  · intro rel body hall
    unfold deriveTitle
    rw [List.find?_eq_none.mpr (fun l hl => by rw [hall l hl]; simp)]
  · intro rel body h1 pre post hsplit hpre hh
    unfold deriveTitle
    rw [hsplit, find?_append_first pre h1 post hpre hh]

/-- Witness for the amended C3: the first qualifying heading line of a
multi-line body yields its stripped, trimmed remainder. -/
theorem deriveTitle_amended_witness :
    deriveTitle "a/b.md".toList "x\n# T\ny".toList = "T".toList :=
  (deriveTitle_amended.2.2.2 "a/b.md".toList "x\n# T\ny".toList "# T".toList
    ["x".toList] ["y".toList] (by decide) (by decide) (by decide)).trans (by decide)


/-! ## Lemmas about the header-object upsert and the flat store -/

theorem find?_map_upsert (m : List (LC × LC)) (k v : LC) :
    m.any (fun p => p.1 = k) = true →
    (m.map (fun p => if p.1 = k then (k, v) else p)).find? (fun p => p.1 = k) =
      some (k, v) := by
  induction m with
  | nil => intro h; simp at h
  | cons p rest ih =>
    intro h
    rw [List.map_cons]
    by_cases hp : p.1 = k
    · rw [if_pos hp, List.find?_cons_of_pos _ (by simp)]
    · rw [if_neg hp, List.find?_cons_of_neg _ (by simp [hp])]
      rw [List.any_cons] at h
      simp only [hp, decide_False, Bool.false_or] at h
      exact ih h

theorem find?_eq_none_of_not_any (m : List (LC × LC)) (k : LC)
    (h : ¬m.any (fun p => p.1 = k) = true) :
    m.find? (fun p => p.1 = k) = none := by
  rw [List.find?_eq_none]
  intro p hp hpk
  exact h (List.any_eq_true.mpr ⟨p, hp, hpk⟩)

theorem fmGet_fmSet_self (m : List (LC × LC)) (k v : LC) :
    fmGet (fmSet m k v) k = some v := by
  unfold fmSet
  by_cases h : m.any (fun p => p.1 = k) = true
  · rw [if_pos h]
    unfold fmGet
    rw [find?_map_upsert m k v h]
    rfl
  · rw [if_neg h]
    unfold fmGet
    rw [List.find?_append, find?_eq_none_of_not_any m k h]
    simp

theorem fmGet_fmSet_other (m : List (LC × LC)) (k v q : LC) (hq : q ≠ k) :
    fmGet (fmSet m k v) q = fmGet m q := by
  unfold fmSet
  by_cases h : m.any (fun p => p.1 = k) = true
  · rw [if_pos h]
    unfold fmGet
    clear h
    induction m with
    | nil => rfl
    | cons p rest ih =>
      rw [List.map_cons]
      by_cases hp : p.1 = k
      · rw [if_pos hp]
        rw [List.find?_cons_of_neg _ (by simp [Ne.symm hq]),
          List.find?_cons_of_neg _ (by simp [hp ▸ Ne.symm hq])]
        simpa using ih
      · rw [if_neg hp]
        by_cases hpq : p.1 = q
        · rw [List.find?_cons_of_pos _ (by simp [hpq]),
            List.find?_cons_of_pos _ (by simp [hpq])]
        · rw [List.find?_cons_of_neg _ (by simp [hpq]),
            List.find?_cons_of_neg _ (by simp [hpq])]
          simpa using ih
  · rw [if_neg h]
    unfold fmGet
    rw [List.find?_append]
    rw [show ([(k, v)].find? fun p => p.1 = q) = none from by
      rw [List.find?_cons_of_neg _ (by simp [Ne.symm hq])]; rfl]
    simp

/-! ## C5: applyCategoryChange deletion ordering -/

/-- C5: in the effect plan of `applyCategoryChange`, the old file is
unlinked only when the new absolute path differs from the old one (no
event at all touches it otherwise), the unlink comes strictly after the
write of the new file, and applying only the effects up to the write
(the state in which a failure before the unlink would leave the disk)
leaves both the old file with its original content and the new file with
the rewritten content present. -/
theorem applyCategoryChange_ordering (fs : Fs) (root notePath : LC)
    (cat : CategoryPath) (plan : ApplyPlan)
    (h : applyCategoryChangePlan fs root notePath cat = some plan) :
    (plan.absNew = plan.absOld → ∀ p, FsEvent.unlink p ∉ plan.events) ∧
    (plan.absNew ≠ plan.absOld →
      ∃ pre post, plan.events = pre ++ FsEvent.unlink plan.absOld :: post ∧
        FsEvent.write plan.absNew plan.newContent ∈ pre ∧
        lookupFile (applyEvents fs pre) plan.absOld = some plan.rawOld ∧
        lookupFile (applyEvents fs pre) plan.absNew = some plan.newContent) := by
  simp only [applyCategoryChangePlan] at h
  cases hlook : lookupFile fs (resolveAbsolute root (dropLeadingSlashes (mapBS notePath))) with
  | none => rw [hlook] at h; cases h
  | some raw =>
    rw [hlook] at h
    rw [Option.some.injEq] at h
    subst h
    constructor
    · intro heq p
      simp only at heq ⊢
      rw [if_pos heq]
      simp [List.mem_cons]
    · intro hne
      simp only at hne ⊢
      rw [if_neg hne]
      refine ⟨[FsEvent.read (resolveAbsolute root (dropLeadingSlashes (mapBS notePath))),
        FsEvent.mkdirRec _, FsEvent.write _ _], [FsEvent.read _], rfl, ?_, ?_, ?_⟩
      · simp [List.mem_cons]
      · simp only [applyEvents, List.foldl_cons, List.foldl_nil, applyEvent, lookupFile]
        rw [fmGet_fmSet_other _ _ _ _ (Ne.symm hne)]
        exact hlook
      · simp only [applyEvents, List.foldl_cons, List.foldl_nil, applyEvent, lookupFile]
        rw [fmGet_fmSet_self]

/-- Witness for C5: moving `inbox/idea.md` to category `AI` under root
`/w` plans read–mkdir–write–unlink–read; after the write (and before the
unlink) both files are present. -/
theorem applyCategoryChange_ordering_witness :
    ∃ plan, applyCategoryChangePlan ⟨[("/w/inbox/idea.md".toList, "hello".toList)], []⟩
        "/w".toList "inbox/idea.md".toList ⟨"AI".toList⟩ = some plan ∧
      plan.absNew ≠ plan.absOld ∧
      (∃ pre post, plan.events = pre ++ FsEvent.unlink plan.absOld :: post ∧
        FsEvent.write plan.absNew plan.newContent ∈ pre ∧
        lookupFile (applyEvents ⟨[("/w/inbox/idea.md".toList, "hello".toList)], []⟩ pre)
          plan.absOld = some plan.rawOld ∧
        lookupFile (applyEvents ⟨[("/w/inbox/idea.md".toList, "hello".toList)], []⟩ pre)
          plan.absNew = some plan.newContent) := by
  have h : applyCategoryChangePlan ⟨[("/w/inbox/idea.md".toList, "hello".toList)], []⟩
      "/w".toList "inbox/idea.md".toList ⟨"AI".toList⟩ = some
      ⟨[FsEvent.read "/w/inbox/idea.md".toList, FsEvent.mkdirRec "/w/AI".toList,
        FsEvent.write "/w/AI/idea.md".toList "---\ncategory: AI\n---\n\nhello".toList,
        FsEvent.unlink "/w/inbox/idea.md".toList, FsEvent.read "/w/AI/idea.md".toList],
        "/w/inbox/idea.md".toList, "/w/AI/idea.md".toList, "AI/idea.md".toList,
        "---\ncategory: AI\n---\n\nhello".toList, "hello".toList⟩ := by decide
  exact ⟨_, h, by decide, (applyCategoryChange_ordering _ _ _ _ _ h).2 (by decide)⟩

/-! ## C6: no-op categorization -/

/-- C6: when the oracle's suggested category string equals the loaded
note's current category string (empty when absent), the use case returns
immediately with `wasMoved = false` and the original note unchanged, the
store state is exactly the input state, and the performed effects — one
read and one directory listing — mutate nothing. -/
theorem noop_categorization (fs : Fs) (root : LC)
    (oracle : NoteM → List CategoryPath → Option DecisionM)
    (rel : LC) (n : NoteM) (d : DecisionM)
    (hload : loadNoteFs fs root rel = some n)
    (hdec : oracle n (listCategoriesFlat fs) = some d)
    (heq : d.suggestedCategory.value =
      (match n.category with | some c => c.value | none => [])) :
    executeUseCase fs root oracle rel =
      some (⟨n, n, false, d.reasoning⟩, fs,
        [FsEvent.read (resolveAbsolute root rel), FsEvent.listdir]) ∧
    (∀ e ∈ [FsEvent.read (resolveAbsolute root rel), FsEvent.listdir],
      isMutatingEvent e = false) := by
  constructor
  · simp only [executeUseCase, hload, hdec]
    rw [if_pos heq.symm]
  · intro e he
    rcases List.mem_cons.mp he with rfl | he
    · rfl
    · rcases List.mem_cons.mp he with rfl | he
      · rfl
      · exact absurd he (List.not_mem_nil e)

/-- Witness for C6: a note already in `AI/Agents` with an oracle that
suggests `AI/Agents` — the use case reports no move and leaves the store
untouched. -/
theorem noop_categorization_witness :
    executeUseCase ⟨[("/w/AI/Agents/x.md".toList, "# T\nbody".toList)], []⟩ "/w".toList
      (fun _ _ => some ⟨⟨"AI/Agents".toList⟩, "ok".toList⟩) "AI/Agents/x.md".toList =
      some (⟨⟨"AI/Agents/x.md".toList, "AI/Agents/x.md".toList, "T".toList,
        "# T\nbody".toList, some ⟨"AI/Agents".toList⟩⟩,
        ⟨"AI/Agents/x.md".toList, "AI/Agents/x.md".toList, "T".toList,
        "# T\nbody".toList, some ⟨"AI/Agents".toList⟩⟩, false, "ok".toList⟩,
        ⟨[("/w/AI/Agents/x.md".toList, "# T\nbody".toList)], []⟩,
        [FsEvent.read (resolveAbsolute "/w".toList "AI/Agents/x.md".toList),
          FsEvent.listdir]) :=
  (noop_categorization ⟨[("/w/AI/Agents/x.md".toList, "# T\nbody".toList)], []⟩
    "/w".toList (fun _ _ => some ⟨⟨"AI/Agents".toList⟩, "ok".toList⟩)
    "AI/Agents/x.md".toList
    ⟨"AI/Agents/x.md".toList, "AI/Agents/x.md".toList, "T".toList,
      "# T\nbody".toList, some ⟨"AI/Agents".toList⟩⟩
    ⟨⟨"AI/Agents".toList⟩, "ok".toList⟩
    (by decide) (by decide) (by decide)).1

/-! ## Lemmas about path segments and joining -/

/-- A well-behaved path segment: non-empty ordinary directory name. -/
def PlainSeg (n : LC) : Prop :=
  n ≠ [] ∧ '/' ∉ n ∧ '\\' ∉ n ∧ jsTrim n = n ∧ n ≠ ".".toList ∧ n ≠ "..".toList

theorem plainNameB_spec (n : LC) (h : plainNameB n = true) : PlainSeg n := by
  unfold plainNameB at h
  simp only [Bool.and_eq_true, decide_eq_true_eq, Bool.not_eq_true',
    decide_eq_false_iff_not] at h
  exact ⟨h.1.1.1.1.1, h.1.1.1.1.2, h.1.1.1.2, h.1.1.2, h.1.2, h.2⟩

theorem splitSlash_cons_other (c : Char) (rest : LC) (hc : c ≠ '/') :
    splitSlash (c :: rest) = consHead c (splitSlash rest) := by
  rw [splitSlash.eq_def]
  split
  · simp_all
  · rename_i heq
    rw [List.cons.injEq] at heq
    exact absurd heq.1 hc
  · rename_i heq
    injection heq with hc2 hr
    subst hc2; subst hr; rfl

theorem splitSlash_ne_nil (xs : LC) : splitSlash xs ≠ [] := by
  induction xs with
  | nil => simp [splitSlash]
  | cons c rest ih =>
    by_cases hc : c = '/'
    · subst hc; simp [splitSlash]
    · rw [splitSlash_cons_other c rest hc]
      cases hs : splitSlash rest with
      | nil => exact absurd hs ih
      | cons l ls => simp [consHead]

theorem splitSlash_append (x y : LC) :
    splitSlash (x ++ '/' :: y) = splitSlash x ++ splitSlash y := by
  induction x with
  | nil => rfl
  | cons c x' ih =>
    by_cases hc : c = '/'
    · subst hc
      rw [List.cons_append, show splitSlash ('/' :: (x' ++ '/' :: y)) =
        [] :: splitSlash (x' ++ '/' :: y) from rfl, ih]
      rfl
    · rw [List.cons_append, splitSlash_cons_other c _ hc, ih,
        splitSlash_cons_other c _ hc]
      cases hs : splitSlash x' with
      | nil => exact absurd hs (splitSlash_ne_nil x')
      | cons l ls => rfl

theorem splitSlash_no_slash (n : LC) (h : '/' ∉ n) : splitSlash n = [n] := by
  induction n with
  | nil => rfl
  | cons c rest ih =>
    have hc : c ≠ '/' := fun he => h (he ▸ List.mem_cons_self _ _)
    rw [splitSlash_cons_other c rest hc, ih (fun hm => h (List.mem_cons_of_mem _ hm))]
    rfl

theorem pathSegs_append (x y : LC) :
    pathSegs (x ++ '/' :: y) = pathSegs x ++ pathSegs y := by
  unfold pathSegs
  rw [splitSlash_append, List.filter_append]

theorem pathSegs_plain (n : LC) (h1 : '/' ∉ n) (h2 : n ≠ []) : pathSegs n = [n] := by
  unfold pathSegs
  rw [splitSlash_no_slash n h1]
  simp [h2]

theorem normStep_generic (abs : Bool) (acc : List LC) (s : LC)
    (h1 : s ≠ ".".toList) (h2 : s ≠ "..".toList) : normStep abs acc s = s :: acc := by
  unfold normStep
  rw [if_neg h1, if_neg h2]

theorem foldl_normStep_generic (abs : Bool) (segs : List LC) :
    ∀ acc, (∀ s ∈ segs, s ≠ ".".toList ∧ s ≠ "..".toList) →
    segs.foldl (normStep abs) acc = segs.reverse ++ acc := by
  induction segs with
  | nil => intro acc _; simp
  | cons s rest ih =>
    intro acc h
    obtain ⟨h1, h2⟩ := h s (List.mem_cons_self _ _)
    rw [List.foldl_cons, normStep_generic abs acc s h1 h2,
      ih _ (fun x hx => h x (List.mem_cons_of_mem _ hx))]
    simp

theorem joinSegs_cons_cons (n m : LC) (rest : List LC) :
    joinSegs (n :: m :: rest) = n ++ '/' :: joinSegs (m :: rest) := rfl

theorem joinSegs_ne_nil (names : List LC) (h0 : names ≠ [])
    (h : ∀ n ∈ names, n ≠ []) : joinSegs names ≠ [] := by
  cases names with
  | nil => exact absurd rfl h0
  | cons n rest =>
    cases rest with
    | nil => exact h n (List.mem_cons_self _ _)
    | cons m rest' =>
      rw [joinSegs_cons_cons]
      cases hn : n with
      | nil => exact absurd hn (h n (List.mem_cons_self _ _))
      | cons c w => simp

theorem head?_joinSegs (n : LC) (names : List LC) (hn : n ≠ []) :
    (joinSegs (n :: names)).head? = n.head? := by
  cases names with
  | nil => rfl
  | cons m rest =>
    rw [joinSegs_cons_cons]
    cases n with
    | nil => exact absurd rfl hn
    | cons c w => rfl

theorem getLast?_joinSegs (names : List LC) :
    ∀ n, (∀ x ∈ names, x ≠ []) → names.getLast? = some n →
    (joinSegs names).getLast? = n.getLast? := by
  induction names with
  | nil => intro n _ h; cases h
  | cons x rest ih =>
    intro n hne h
    cases rest with
    | nil =>
      rw [List.getLast?_singleton] at h
      rw [Option.some.injEq] at h
      subst h
      rfl
    | cons y rest' =>
      rw [List.getLast?_cons_cons] at h
      rw [joinSegs_cons_cons,
        List.getLast?_append_of_ne_nil x
          (show ('/' :: joinSegs (y :: rest')) ≠ [] by simp),
        show ('/' :: joinSegs (y :: rest')) = ['/'] ++ joinSegs (y :: rest') from rfl,
        List.getLast?_append_of_ne_nil ['/']
          (joinSegs_ne_nil _ (by simp) (fun z hz => hne z (List.mem_cons_of_mem _ hz)))]
      exact ih n (fun z hz => hne z (List.mem_cons_of_mem _ hz)) h

theorem mem_joinSegs (names : List LC) (y : Char) :
    y ∈ joinSegs names → y = '/' ∨ ∃ n ∈ names, y ∈ n := by
  induction names with
  | nil => intro h; cases h
  | cons x rest ih =>
    intro h
    cases rest with
    | nil => exact Or.inr ⟨x, List.mem_cons_self _ _, h⟩
    | cons m rest' =>
      rw [joinSegs_cons_cons, List.mem_append] at h
      rcases h with h | h
      · exact Or.inr ⟨x, List.mem_cons_self _ _, h⟩
      · rcases List.mem_cons.mp h with rfl | h
        · exact Or.inl rfl
        · rcases ih h with h | ⟨n, hn, hy⟩
          · exact Or.inl h
          · exact Or.inr ⟨n, List.mem_cons_of_mem _ hn, hy⟩

theorem mem_of_head? {α : Type} {xs : List α} {c : α} (h : xs.head? = some c) : c ∈ xs := by
  cases xs with
  | nil => cases h
  | cons d w =>
    rw [List.head?_cons, Option.some.injEq] at h
    exact h ▸ List.mem_cons_self _ _

theorem mem_of_getLast? {α : Type} {xs : List α} {c : α} (h : xs.getLast? = some c) : c ∈ xs := by
  rcases List.eq_nil_or_concat xs with rfl | ⟨ys, a, rfl⟩
  · cases h
  · rw [List.concat_eq_append] at h ⊢
    rw [List.getLast?_concat, Option.some.injEq] at h
    exact List.mem_append_right _ (h ▸ List.mem_cons_self _ _)

theorem goodSlash_of_no_slash (xs : LC) (h : '/' ∉ xs) : GoodSlash xs := by
  induction xs with
  | nil => simp [GoodSlash]
  | cons c rest ih =>
    rw [GoodSlash, List.chain'_cons']
    refine ⟨?_, ih (fun hm => h (List.mem_cons_of_mem _ hm))⟩
    intro y _
    rintro ⟨rfl, -⟩
    exact h (List.mem_cons_self _ _)

theorem goodSlash_joinSegs (names : List LC)
    (h : ∀ n ∈ names, n ≠ [] ∧ '/' ∉ n) : GoodSlash (joinSegs names) := by
  induction names with
  | nil => simp [GoodSlash, joinSegs]
  | cons x rest ih =>
    cases rest with
    | nil =>
      exact goodSlash_of_no_slash x (h x (List.mem_cons_self _ _)).2
    | cons y rest' =>
      have hx := h x (List.mem_cons_self _ _)
      have hy := h y (List.mem_cons_of_mem _ (List.mem_cons_self _ _))
      have hrest : ∀ n ∈ y :: rest', n ≠ [] ∧ '/' ∉ n :=
        fun n hn => h n (List.mem_cons_of_mem _ hn)
      rw [joinSegs_cons_cons, GoodSlash, List.chain'_append]
      refine ⟨goodSlash_of_no_slash x hx.2, ?_, ?_⟩
      · rw [List.chain'_cons']
        refine ⟨?_, ih hrest⟩
        intro b hb
        rintro ⟨-, rfl⟩
        rw [head?_joinSegs y rest' hy.1] at hb
        exact hy.2 (mem_of_head? hb)
      · intro a ha b hb
        rintro ⟨rfl, -⟩
        exact hx.2 (mem_of_getLast? ha)

theorem dropWhile_eq_self_of_head (p : Char → Bool) (xs : LC)
    (h : ∀ c, xs.head? = some c → p c = false) : xs.dropWhile p = xs := by
  cases xs with
  | nil => rfl
  | cons c rest =>
    rw [List.dropWhile_cons_of_neg]
    rw [h c rfl]
    simp

theorem jsTrim_eq_self_of (xs : LC)
    (hh : ∀ c, xs.head? = some c → isWs c = false)
    (hl : ∀ c, xs.getLast? = some c → isWs c = false) : jsTrim xs = xs := by
  unfold jsTrim
  rw [dropWhile_eq_self_of_head _ _ hh,
    dropWhile_eq_self_of_head _ _ (fun c hc => hl c (by rwa [List.head?_reverse] at hc)),
    List.reverse_reverse]

theorem getLast?_exists {α : Type} (xs : List α) (h : xs ≠ []) : ∃ c, xs.getLast? = some c := by
  rcases List.eq_nil_or_concat xs with rfl | ⟨ys, a, rfl⟩
  · exact absurd rfl h
  · rw [List.concat_eq_append, List.getLast?_concat]
    exact ⟨a, rfl⟩

theorem fromRaw_joinSegs (names : List LC) (h0 : names ≠ [])
    (h : ∀ n ∈ names, PlainSeg n) :
    CategoryPath.fromRaw (joinSegs names) = some ⟨joinSegs names⟩ := by
  have hne : joinSegs names ≠ [] :=
    joinSegs_ne_nil names h0 (fun n hn => (h n hn).1)
  have hfirst : ∃ x rest, names = x :: rest := by
    cases names with
    | nil => exact absurd rfl h0
    | cons x rest => exact ⟨x, rest, rfl⟩
  obtain ⟨x, rest, rfl⟩ := hfirst
  have hx := h x (List.mem_cons_self _ _)
  apply fromRaw_fixed
  · exact hne
  · intro hmem
    rcases mem_joinSegs _ _ hmem with he | ⟨n, hn, hyn⟩
    · cases he
    · exact (h n hn).2.2.1 hyn
  · exact goodSlash_joinSegs _ (fun n hn => ⟨(h n hn).1, (h n hn).2.1⟩)
  · rw [head?_joinSegs x rest hx.1]
    intro hc
    exact hx.2.1 (mem_of_head? hc)
  · obtain ⟨m, hm⟩ := getLast?_exists (x :: rest) (by simp)
    have hmm : m ∈ x :: rest := mem_of_getLast? hm
    rw [getLast?_joinSegs (x :: rest) m (fun z hz => (h z hz).1) hm]
    intro hc
    exact (h m hmm).2.1 (mem_of_getLast? hc)
  · apply jsTrim_eq_self_of
    · intro c hc
      rw [head?_joinSegs x rest hx.1] at hc
      exact trimStable_head_not_ws x hx.2.2.2.1 c hc
    · intro c hc
      obtain ⟨m, hm⟩ := getLast?_exists (x :: rest) (by simp)
      have hmm : m ∈ x :: rest := mem_of_getLast? hm
      rw [getLast?_joinSegs (x :: rest) m (fun z hz => (h z hz).1) hm] at hc
      exact trimStable_getLast_not_ws m (h m hmm).2.2.2.1 c hc

theorem pathSegs_joinSegs (names : List LC)
    (h : ∀ n ∈ names, n ≠ [] ∧ '/' ∉ n) : pathSegs (joinSegs names) = names := by
  induction names with
  | nil => rfl
  | cons x rest ih =>
    cases rest with
    | nil =>
      have hx := h x (List.mem_cons_self _ _)
      exact pathSegs_plain x hx.2 hx.1
    | cons y rest' =>
      have hx := h x (List.mem_cons_self _ _)
      rw [joinSegs_cons_cons, pathSegs_append, pathSegs_plain x hx.2 hx.1,
        ih (fun n hn => h n (List.mem_cons_of_mem _ hn))]
      rfl

theorem joinSegs_append_singleton (names : List LC) (nm : LC) (h0 : names ≠ []) :
    joinSegs (names ++ [nm]) = joinSegs names ++ '/' :: nm := by
  induction names with
  | nil => exact absurd rfl h0
  | cons x rest ih =>
    cases rest with
    | nil => rfl
    | cons y rest' =>
      rw [List.cons_append, List.cons_append, joinSegs_cons_cons x y (rest' ++ [nm]),
        show (y :: (rest' ++ [nm]) : List LC) = (y :: rest') ++ [nm] from rfl,
        ih (by simp), joinSegs_cons_cons]
      simp

theorem posixJoin_plainPath (names : List LC) (nm : LC) (h0 : names ≠ [])
    (hpl : ∀ n ∈ names, PlainSeg n) (hn : PlainSeg nm) :
    posixJoin (joinSegs names) nm = joinSegs names ++ '/' :: nm := by
  have hA : joinSegs names ≠ [] := joinSegs_ne_nil names h0 (fun n h => (hpl n h).1)
  obtain ⟨x, rest, rfl⟩ : ∃ x rest, names = x :: rest := by
    cases names with
    | nil => exact absurd rfl h0
    | cons x rest => exact ⟨x, rest, rfl⟩
  have hx := hpl x (List.mem_cons_self _ _)
  unfold posixJoin
  rw [show ([joinSegs (x :: rest), nm].filter (· ≠ [])) = [joinSegs (x :: rest), nm] from by
    simp [hA, hn.1]]
  rw [show joinSegs [joinSegs (x :: rest), nm] = joinSegs (x :: rest) ++ '/' :: nm from rfl]
  have hsegs : pathSegs (joinSegs (x :: rest) ++ '/' :: nm) = (x :: rest) ++ [nm] := by
    rw [pathSegs_append,
      pathSegs_joinSegs (x :: rest) (fun n h => ⟨(hpl n h).1, (hpl n h).2.1⟩),
      pathSegs_plain nm hn.2.1 hn.1]
  have hhead : ((joinSegs (x :: rest) ++ '/' :: nm).head? = some '/') = False := by
    apply eq_false
    cases hcons : joinSegs (x :: rest) with
    | nil => exact absurd hcons hA
    | cons c w =>
      rw [List.cons_append, List.head?_cons]
      intro he
      rw [Option.some.injEq] at he
      subst he
      have hch : (joinSegs (x :: rest)).head? = some '/' := by rw [hcons]; rfl
      rw [head?_joinSegs x rest hx.1] at hch
      exact hx.2.1 (mem_of_head? hch)
  have htrail : ((joinSegs (x :: rest) ++ '/' :: nm).getLast? = some '/') = False := by
    apply eq_false
    rw [List.getLast?_append_cons, show ('/' :: nm) = ['/'] ++ nm from rfl,
      List.getLast?_append_of_ne_nil ['/'] hn.1]
    intro he
    exact hn.2.1 (mem_of_getLast? he)
  have hgen : ∀ s ∈ (x :: rest) ++ [nm], s ≠ ".".toList ∧ s ≠ "..".toList := by
    intro s hs
    rcases List.mem_append.mp hs with hs | hs
    · exact ⟨(hpl s hs).2.2.2.2.1, (hpl s hs).2.2.2.2.2⟩
    · rcases List.mem_cons.mp hs with rfl | hs
      · exact ⟨hn.2.2.2.2.1, hn.2.2.2.2.2⟩
      · exact absurd hs (List.not_mem_nil s)
  unfold normalizePath
  simp only [hsegs, hhead, htrail, decide_False]
  rw [foldl_normStep_generic false ((x :: rest) ++ [nm]) [] hgen]
  simp only [List.append_nil, List.reverse_reverse, List.cons_append]
  rw [show ((x :: (rest ++ [nm])) : List LC) = (x :: rest) ++ [nm] from rfl,
    joinSegs_append_singleton (x :: rest) nm (by simp)]
  simp

theorem posixJoin_dot (nm : LC) (hn : PlainSeg nm) : posixJoin ".".toList nm = nm := by
  unfold posixJoin
  rw [show ([".".toList, nm].filter (· ≠ [])) = [".".toList, nm] from by simp [hn.1]]
  rw [show joinSegs [".".toList, nm] = ".".toList ++ '/' :: nm from rfl]
  unfold normalizePath
  have hsegs : pathSegs (".".toList ++ '/' :: nm) = [".".toList, nm] := by
    rw [pathSegs_append, pathSegs_plain ".".toList (by decide) (by decide),
      pathSegs_plain nm hn.2.1 hn.1]
    rfl
  have hhead : ((".".toList ++ '/' :: nm).head? = some '/') = False := by
    apply eq_false
    show ¬(('.' :: '/' :: nm).head? = some '/')
    simp
  have htrail : ((".".toList ++ '/' :: nm).getLast? = some '/') = False := by
    apply eq_false
    rw [List.getLast?_append_cons, show ('/' :: nm) = ['/'] ++ nm from rfl,
      List.getLast?_append_of_ne_nil ['/'] hn.1]
    intro he
    exact hn.2.1 (mem_of_getLast? he)
  simp only [hsegs, hhead, htrail, decide_False]
  rw [show ([".".toList, nm].foldl (normStep false) []) = [nm] from by
    rw [List.foldl_cons, show normStep false [] ".".toList = [] from by
        unfold normStep
        rw [if_pos rfl],
      List.foldl_cons, normStep_generic false [] nm hn.2.2.2.2.1 hn.2.2.2.2.2,
      List.foldl_nil]]
  simp [joinSegs]

theorem clean_of_plain (p : LC) (hbs : '\\' ∉ p) (hh : p.head? ≠ some '/') :
    dropLeadingSlashes (mapBS p) = p := by
  rw [mapBS_id p hbs]
  unfold dropLeadingSlashes
  apply dropWhile_eq_self_of_head
  intro c hc
  rw [decide_eq_false_iff_not]
  intro he
  exact hh (he ▸ hc)

theorem clean_joinSegs (names : List LC) (h0 : names ≠ [])
    (hpl : ∀ n ∈ names, PlainSeg n) :
    dropLeadingSlashes (mapBS (joinSegs names)) = joinSegs names := by
  obtain ⟨x, rest, rfl⟩ : ∃ x rest, names = x :: rest := by
    cases names with
    | nil => exact absurd rfl h0
    | cons x rest => exact ⟨x, rest, rfl⟩
  have hx := hpl x (List.mem_cons_self _ _)
  apply clean_of_plain
  · intro hmem
    rcases mem_joinSegs _ _ hmem with he | ⟨n, hn, hyn⟩
    · cases he
    · exact (hpl n hn).2.2.1 hyn
  · rw [head?_joinSegs x rest hx.1]
    intro hc
    exact hx.2.1 (mem_of_head? hc)

theorem wfEntries_consDir (n : LC) (sub : DirTree) (rest : EntryList)
    (h : wfEntries (.consDir n sub rest) = true) :
    plainNameB n = true ∧ wfDir sub = true ∧ wfEntries rest = true := by
  rw [wfEntries, Bool.and_eq_true, Bool.and_eq_true] at h
  exact ⟨h.1.1, h.1.2, h.2⟩

theorem wfEntries_consFile (n : LC) (rest : EntryList)
    (h : wfEntries (.consFile n rest) = true) : wfEntries rest = true := by
  rw [wfEntries, Bool.and_eq_true] at h
  exact h.2

theorem wfDir_node (es : EntryList) (h : wfDir (.node es) = true) :
    (entryNames es).Nodup ∧ wfEntries es = true := by
  rw [wfDir, Bool.and_eq_true, decide_eq_true_eq] at h
  exact h

mutual
theorem walkDir_spec : ∀ (t : DirTree) (names : List LC), names ≠ [] →
    (∀ n ∈ names, PlainSeg n) → wfDir t = true →
    walkDir (joinSegs names) t =
      (specDirPaths t).map (fun p => joinSegs names ++ '/' :: p)
  | .node es, names, h0, hpl, hwf => by
    rw [walkDir, specDirPaths]
    exact walkEntries_spec es names h0 hpl (wfDir_node es hwf).2

theorem walkEntries_spec : ∀ (es : EntryList) (names : List LC), names ≠ [] →
    (∀ n ∈ names, PlainSeg n) → wfEntries es = true →
    walkEntries (joinSegs names) es =
      (specDirPathsEntries es).map (fun p => joinSegs names ++ '/' :: p)
  | .nil, _, _, _, _ => rfl
  | .consFile n rest, names, h0, hpl, hwf => by
    rw [walkEntries, specDirPathsEntries]
    exact walkEntries_spec rest names h0 hpl (wfEntries_consFile n rest hwf)
  | .consDir n sub rest, names, h0, hpl, hwf => by
    obtain ⟨hn, hsub, hrest⟩ := wfEntries_consDir n sub rest hwf
    have hnp := plainNameB_spec n hn
    have hpl' : ∀ m ∈ names ++ [n], PlainSeg m := by
      intro m hm
      rcases List.mem_append.mp hm with hm | hm
      · exact hpl m hm
      · rcases List.mem_cons.mp hm with rfl | hm
        · exact hnp
        · exact absurd hm (List.not_mem_nil m)
    have hclean : dropLeadingSlashes (mapBS (posixJoin (joinSegs names) n)) =
        joinSegs (names ++ [n]) := by
      rw [posixJoin_plainPath names n h0 hpl hnp,
        ← joinSegs_append_singleton names n h0]
      exact clean_joinSegs (names ++ [n]) (by simp) hpl'
    rw [walkEntries, specDirPathsEntries]
    simp only [hclean]
    rw [walkDir_spec sub (names ++ [n]) (by simp) hpl' hsub,
      walkEntries_spec rest names h0 hpl hrest]
    rw [List.map_append, List.map_cons, List.map_map]
    rw [joinSegs_append_singleton names n h0]
    congr 1
    congr 1
    apply List.map_congr_left
    intro p _
    show (joinSegs names ++ '/' :: n) ++ '/' :: p =
      joinSegs names ++ '/' :: (n ++ '/' :: p)
    rw [List.append_assoc]
    rfl
end

theorem walkEntries_root : ∀ es : EntryList, wfEntries es = true →
    walkEntries ".".toList es = specDirPathsEntries es
  | .nil, _ => rfl
  | .consFile n rest, hwf => by
    rw [walkEntries, specDirPathsEntries]
    exact walkEntries_root rest (wfEntries_consFile n rest hwf)
  | .consDir n sub rest, hwf => by
    obtain ⟨hn, hsub, hrest⟩ := wfEntries_consDir n sub rest hwf
    have hnp := plainNameB_spec n hn
    have hclean : dropLeadingSlashes (mapBS (posixJoin ".".toList n)) = n := by
      rw [posixJoin_dot n hnp]
      exact clean_of_plain n hnp.2.2.1 (fun hc => hnp.2.1 (mem_of_head? hc))
    rw [walkEntries, specDirPathsEntries]
    simp only [hclean]
    rw [show (n : LC) = joinSegs [n] from rfl,
      walkDir_spec sub [n] (by simp) (by
        intro m hm
        rcases List.mem_cons.mp hm with rfl | hm
        · exact hnp
        · exact absurd hm (List.not_mem_nil m)) hsub,
      walkEntries_root rest hrest]

theorem walkDir_root (t : DirTree) (hwf : wfDir t = true) :
    walkDir ".".toList t = specDirPaths t := by
  cases t with
  | node es =>
    rw [walkDir, specDirPaths]
    exact walkEntries_root es (wfDir_node es hwf).2

theorem takeWhile_all_ne (n : LC) (h : '/' ∉ n) : n.takeWhile (· ≠ '/') = n :=
  List.takeWhile_eq_self_iff.mpr (fun c hc => by
    rw [decide_eq_true_eq]
    exact fun he => h (he ▸ hc))

theorem takeWhile_append_slash (n p : LC) (h : '/' ∉ n) :
    (n ++ '/' :: p).takeWhile (· ≠ '/') = n := by
  induction n with
  | nil => simp [List.takeWhile_cons]
  | cons c w ih =>
    have hc : c ≠ '/' := fun he => h (he ▸ List.mem_cons_self _ _)
    rw [List.cons_append, List.takeWhile_cons_of_pos (by
      rw [decide_eq_true_eq]; exact hc)]
    rw [ih (fun hm => h (List.mem_cons_of_mem _ hm))]

theorem firstSeg_spec_mem : ∀ es : EntryList, wfEntries es = true →
    ∀ q ∈ specDirPathsEntries es, q.takeWhile (· ≠ '/') ∈ entryNames es
  | .nil, _, q, hq => absurd hq (List.not_mem_nil q)
  | .consFile n rest, hwf, q, hq => by
    rw [specDirPathsEntries] at hq
    rw [entryNames]
    exact List.mem_cons_of_mem _
      (firstSeg_spec_mem rest (wfEntries_consFile n rest hwf) q hq)
  | .consDir n sub rest, hwf, q, hq => by
    obtain ⟨hn, hsub, hrest⟩ := wfEntries_consDir n sub rest hwf
    have hnp := plainNameB_spec n hn
    rw [specDirPathsEntries] at hq
    rw [entryNames]
    rcases List.mem_append.mp hq with hq | hq
    · rcases List.mem_cons.mp hq with rfl | hq
      · rw [takeWhile_all_ne q hnp.2.1]
        exact List.mem_cons_self _ _
      · obtain ⟨p, _, rfl⟩ := List.mem_map.mp hq
        rw [takeWhile_append_slash n p hnp.2.1]
        exact List.mem_cons_self _ _
    · exact List.mem_cons_of_mem _ (firstSeg_spec_mem rest hrest q hq)

mutual
theorem specDirPaths_nodup : ∀ t : DirTree, wfDir t = true → (specDirPaths t).Nodup
  | .node es, hwf => by
    rw [specDirPaths]
    exact specDirPathsEntries_nodup es (wfDir_node es hwf).2 (wfDir_node es hwf).1

theorem specDirPathsEntries_nodup : ∀ es : EntryList, wfEntries es = true →
    (entryNames es).Nodup → (specDirPathsEntries es).Nodup
  | .nil, _, _ => by rw [specDirPathsEntries]; exact List.nodup_nil
  | .consFile n rest, hwf, hnd => by
    rw [specDirPathsEntries]
    refine specDirPathsEntries_nodup rest (wfEntries_consFile n rest hwf) ?_
    rw [entryNames] at hnd
    exact hnd.of_cons
  | .consDir n sub rest, hwf, hnd => by
    obtain ⟨hn, hsub, hrest⟩ := wfEntries_consDir n sub rest hwf
    have hnp := plainNameB_spec n hn
    rw [entryNames, List.nodup_cons] at hnd
    rw [specDirPathsEntries, List.nodup_append]
    refine ⟨?_, specDirPathsEntries_nodup rest hrest hnd.2, ?_⟩
    · rw [List.nodup_cons]
      constructor
      · intro hmem
        obtain ⟨p, _, he⟩ := List.mem_map.mp hmem
        have hlen := congrArg List.length he
        simp only [List.length_append, List.length_cons] at hlen
        omega
      · refine List.Nodup.map ?_ (specDirPaths_nodup sub hsub)
        intro p q hpq
        have hc := List.append_cancel_left hpq
        injection hc
    · intro q hq hq'
      have h1 : q.takeWhile (· ≠ '/') = n := by
        rcases List.mem_cons.mp hq with rfl | hq
        · exact takeWhile_all_ne q hnp.2.1
        · obtain ⟨p, _, rfl⟩ := List.mem_map.mp hq
          exact takeWhile_append_slash n p hnp.2.1
      have h2 := firstSeg_spec_mem rest hrest q hq'
      rw [h1] at h2
      exact hnd.1 h2
end

mutual
theorem specDirPaths_plain : ∀ t : DirTree, wfDir t = true →
    ∀ p ∈ specDirPaths t,
    ∃ names, names ≠ [] ∧ (∀ n ∈ names, PlainSeg n) ∧ p = joinSegs names
  | .node es, hwf, p, hp => by
    rw [specDirPaths] at hp
    exact specDirPathsEntries_plain es (wfDir_node es hwf).2 p hp

theorem specDirPathsEntries_plain : ∀ es : EntryList, wfEntries es = true →
    ∀ p ∈ specDirPathsEntries es,
    ∃ names, names ≠ [] ∧ (∀ n ∈ names, PlainSeg n) ∧ p = joinSegs names
  | .nil, _, p, hp => absurd hp (List.not_mem_nil p)
  | .consFile n rest, hwf, p, hp => by
    rw [specDirPathsEntries] at hp
    exact specDirPathsEntries_plain rest (wfEntries_consFile n rest hwf) p hp
  | .consDir n sub rest, hwf, p, hp => by
    obtain ⟨hn, hsub, hrest⟩ := wfEntries_consDir n sub rest hwf
    have hnp := plainNameB_spec n hn
    rw [specDirPathsEntries] at hp
    rcases List.mem_append.mp hp with hp | hp
    · rcases List.mem_cons.mp hp with rfl | hp
      · refine ⟨[p], by simp, ?_, rfl⟩
        intro m hm
        rcases List.mem_cons.mp hm with rfl | hm
        · exact hnp
        · exact absurd hm (List.not_mem_nil m)
      · obtain ⟨q, hq, rfl⟩ := List.mem_map.mp hp
        obtain ⟨names, h0, hpl, rfl⟩ := specDirPaths_plain sub hsub q hq
        refine ⟨n :: names, by simp, ?_, ?_⟩
        · intro m hm
          rcases List.mem_cons.mp hm with rfl | hm
          · exact hnp
          · exact hpl m hm
        · cases names with
          | nil => exact absurd rfl h0
          | cons y rest' => rw [joinSegs_cons_cons]
    · exact specDirPathsEntries_plain rest hrest p hp
end

theorem fromRawAll_map (l : List LC)
    (h : ∀ p ∈ l, CategoryPath.fromRaw p = some ⟨p⟩) :
    fromRawAll l = some (l.map (fun p => ⟨p⟩)) := by
  induction l with
  | nil => rfl
  | cons c rest ih =>
    rw [fromRawAll, h c (List.mem_cons_self _ _),
      ih (fun p hp => h p (List.mem_cons_of_mem _ hp))]
    rfl

theorem filter_spec_paths (t : DirTree) (hwf : wfDir t = true) :
    (specDirPaths t).filter (fun c => ¬(c = ".".toList ∨ c = [])) = specDirPaths t := by
  apply List.filter_eq_self.mpr
  intro p hp
  obtain ⟨names, h0, hpl, rfl⟩ := specDirPaths_plain t hwf p hp
  rw [decide_eq_true_eq]
  rintro (he | he)
  · obtain ⟨x, rest, rfl⟩ : ∃ x rest, names = x :: rest := by
      cases names with
      | nil => exact absurd rfl h0
      | cons x rest => exact ⟨x, rest, rfl⟩
    have hx := hpl x (List.mem_cons_self _ _)
    cases rest with
    | nil => exact hx.2.2.2.2.1 he
    | cons y rest' =>
      rw [joinSegs_cons_cons] at he
      have hlen := congrArg List.length he
      simp only [List.length_append, List.length_cons] at hlen
      have hxlen : 0 < x.length := List.length_pos.mpr hx.1
      rw [show (".".toList : LC).length = 1 from rfl] at hlen
      omega
  · exact joinSegs_ne_nil names h0 (fun n hn => (hpl n hn).1) he

/-! ## C7: category listing completeness -/

/-- C7: on a well-formed workspace tree (ordinary, sibling-distinct
directory names), `listCategories` succeeds and returns exactly the
root-relative paths of all directories at any depth below the root
(excluding the root itself, including intermediate parents), each as a
`CategoryPath` built from that path, with no duplicates.  `specDirPaths`
is the specification-side enumeration of those directories. -/
theorem listCategories_completeness (t : DirTree) (hwf : wfDir t = true) :
    ∃ cats, listCategoriesTree t = some cats ∧
      cats.map CategoryPath.value = specDirPaths t ∧ cats.Nodup := by
  refine ⟨(specDirPaths t).map (fun p => ⟨p⟩), ?_, ?_, ?_⟩
  · unfold listCategoriesTree
    rw [walkDir_root t hwf, filter_spec_paths t hwf]
    apply fromRawAll_map
    intro p hp
    obtain ⟨names, h0, hpl, rfl⟩ := specDirPaths_plain t hwf p hp
    exact fromRaw_joinSegs names h0 hpl
  · rw [List.map_map]
    exact List.map_id _
  · refine List.Nodup.map ?_ (specDirPaths_nodup t hwf)
    intro a b hab
    exact congrArg CategoryPath.value hab

/-- Witness for C7: the workspace `{AI/Agents, Product}` yields exactly
`{AI, AI/Agents, Product}`, intermediate parent included, without
duplicates. -/
theorem listCategories_completeness_witness :
    ∃ cats,
      listCategoriesTree
        (.node (.consDir "AI".toList (.node (.consDir "Agents".toList (.node .nil) .nil))
          (.consDir "Product".toList (.node .nil) .nil))) = some cats ∧
      cats.map CategoryPath.value =
        ["AI".toList, "AI/Agents".toList, "Product".toList] ∧ cats.Nodup := by
  obtain ⟨cats, h1, h2, h3⟩ := listCategories_completeness
    (.node (.consDir "AI".toList (.node (.consDir "Agents".toList (.node .nil) .nil))
      (.consDir "Product".toList (.node .nil) .nil))) (by decide)
  exact ⟨cats, h1, h2.trans (by decide), h3⟩
